import Mathlib

/-!
# Structured errors (`package errors`): a shallow embedding and its properties

The Go package builds classified, chained error values (`errors.go`) and renders
call-stack snapshots (`stack.go`).  `*Error` values are pointers: `E` copies the
structured error it wraps and then clears fields of that copy.  To keep the
difference between a pointee and its copy visible, the embedding passes an explicit
heap: an `*Error` is an address into `Heap.errors`, `copy := *arg; &copy` allocates,
and `prev.Code = 0` is a write at the address of `prev`.

Go strings are modelled by `String`, `int` by `Int`, and the `uint8` behind `Kind`
by `Nat` (no arithmetic is performed on kinds, only comparisons).

A `stack` holds the frames its `*runtime.Frames` iterator has not handed out yet and
the cache of rendered lines; its methods return their result together with the stack
they leave.  What the package takes from outside is a parameter: the call stack
(`callers`), `ioutil.ReadFile` (`readFile`), `fmt`'s `%q` (`quote`) and the check
`encoding/json` runs on a marshaler's output (`jsonCompact`).
-/

set_option autoImplicit false
set_option linter.dupNamespace false

namespace errors

/-! ## Data model (`errors.go`, lines 12-49; `stack.go`, lines 22-25) -/

/-- Go `type Code int`. -/
abbrev Code := Int

/-- Go `type Op string`. -/
abbrev Op := String

/-- Go `type Kind uint8`. -/
abbrev Kind := Nat

def Kind.Other : Kind := 0
def Kind.Invalid : Kind := 1
def Kind.Permission : Kind := 2
def Kind.IO : Kind := 3
def Kind.Exist : Kind := 4
def Kind.NotExist : Kind := 5
def Kind.Timeout : Kind := 6
def Kind.Database : Kind := 7
def Kind.Encoding : Kind := 8
def Kind.Decoding : Kind := 9
def Kind.HTTP : Kind := 10
def Kind.DuplicateKey : Kind := 11
def Kind.Canceled : Kind := 12
def Kind.Unimplemented : Kind := 13
def Kind.UnsupportedSyntax : Kind := 14

/-- The fifteen constants of the `const ( Other Kind = iota ... )` block, in order. -/
def Kind.enumerated : List Kind :=
  [Kind.Other, Kind.Invalid, Kind.Permission, Kind.IO, Kind.Exist, Kind.NotExist,
   Kind.Timeout, Kind.Database, Kind.Encoding, Kind.Decoding, Kind.HTTP,
   Kind.DuplicateKey, Kind.Canceled, Kind.Unimplemented, Kind.UnsupportedSyntax]

/-- Method `func (k Kind) String() string`: the `switch` with its cases in source order. -/
def Kind.String (k : Kind) : String :=
  if k = Kind.Exist then "item already exists"
  else if k = Kind.NotExist then "item does not exist"
  else if k = Kind.Invalid then "invalid operation"
  else if k = Kind.Permission then "permission denied"
  else if k = Kind.IO then "I/O error"
  else if k = Kind.Timeout then "timeout error"
  else if k = Kind.Database then "database error"
  else if k = Kind.Encoding then "encoding error"
  else if k = Kind.Decoding then "decoding error"
  else if k = Kind.HTTP then "HTTP error"
  else if k = Kind.Other then "other error"
  else if k = Kind.DuplicateKey then "duplicate key error"
  else if k = Kind.Canceled then "request canceled"
  else if k = Kind.Unimplemented then "unimplemented"
  else "unknown"

/-- An address in the heap: the value of a non-nil pointer. -/
abbrev Addr := Nat

/-- A value of Go's `error` interface, by dynamic type. -/
inductive ErrorValue where
  /-- The nil interface value. -/
  | nil
  /-- A `*stringError` with field `s`, as built by `Str` and `Errorf`. -/
  | stringError (s : String)
  /-- Any implementation of `error` from outside the package; `msg` is what its
  `Error()` method returns. -/
  | foreign (msg : String)
  /-- A non-nil `*Error`, the address of its pointee. -/
  | ptr (a : Addr)
  deriving DecidableEq, Repr

/-- The fields of a `runtime.Frame` that `stack.go` reads. -/
structure Frame where
  Function : String
  File : String
  Line : Int
  deriving DecidableEq, Repr

/-- Go `type stack struct`: the frames the `*runtime.Frames` iterator has not yet
handed out (innermost first), and the cache of rendered lines. -/
structure stack where
  Frames : List Frame
  formatted : List String
  deriving DecidableEq, Repr

/-- Go `type Error struct`.  The embedded `*stack` is an address into `Heap.stackObjs`,
or `none` for a nil pointer. -/
structure Error where
  Code : Code
  Op : Op
  Kind : Kind
  Err : ErrorValue
  stack : Option Addr
  deriving DecidableEq, Repr

/-- The heap: the `Error` and `stack` objects allocated so far, each at the address
given by its position. -/
structure Heap where
  errors : List Error
  stackObjs : List stack
  deriving DecidableEq, Repr

/-- Allocate a new `Error` object and return its address. -/
def Heap.allocError (h : Heap) (e : Error) : Heap × Addr :=
  ({ h with errors := h.errors ++ [e] }, h.errors.length)

/-- Allocate a new `stack` object and return its address. -/
def Heap.allocStack (h : Heap) (s : stack) : Heap × Addr :=
  ({ h with stackObjs := h.stackObjs ++ [s] }, h.stackObjs.length)

/-- Overwrite the `Error` object at address `a`. -/
def Heap.writeError (h : Heap) (a : Addr) (e : Error) : Heap :=
  { h with errors := h.errors.set a e }

/-- One element of `args ...interface{}`, by dynamic type.  A nil value of the
interface type `error` passed to a variadic `interface{}` parameter is the nil
interface, hence `Arg.nil`; a non-nil `error` has one of the three dynamic types
`*Error`, `*stringError` or a foreign one.  Typed nil pointers of error types other
than `*Error` are not represented. -/
inductive Arg where
  /-- The nil interface (`nil`, or a nil `error`). -/
  | nil
  | code (c : Code)
  | op (o : Op)
  | str (s : String)
  | kind (k : Kind)
  /-- A `*Error`: `none` is the typed nil pointer `(*Error)(nil)`. -/
  | errorPtr (p : Option Addr)
  /-- A non-nil `error` whose dynamic type is `*stringError`. -/
  | stringError (s : String)
  /-- A non-nil `error` of a dynamic type from outside the package. -/
  | foreignError (msg : String)
  /-- A value of any other dynamic type; `typ` and `val` are what `fmt` prints for
  it under `%T` and `%v`. -/
  | unknown (typ val : String)
  deriving DecidableEq, Repr

/-! ## Leaf errors (`errors.go`, lines 217-231) -/

/-- Go `func Str(t string) error`. -/
def Str (t : String) : ErrorValue := .stringError t

/-- Go `func Errorf(format string, args ...interface{}) error` at its only call, with
format `"unknown type %T, value %v in error call"` and both verbs applied to the
same argument, whose `%T` and `%v` renderings are `typ` and `val`. -/
def Errorf (typ val : String) : ErrorValue :=
  .stringError ("unknown type " ++ typ ++ ", value " ++ val ++ " in error call")

/-! ## Stack capture (`stack.go`, lines 27-38) -/

/-- Go `func callingLocations(depth, skip int) *stack`.  `callers` is the call stack
of the goroutine, innermost first, entry 0 being `runtime.Callers` itself;
`runtime.Callers(skip, d)` fills `d` with at most `depth` entries after skipping
`skip`. -/
def callingLocations (h : Heap) (callers : List Frame) (depth skip : Nat) :
    Heap × Option Addr :=
  let d := (callers.drop skip).take depth
  if d.length = 0 then (h, none)
  else
    let r := h.allocStack { Frames := d, formatted := [] }
    (r.1, some r.2)

/-! ## Construction and merge (`errors.go`, lines 51-112) -/

/-- What a call returns: a panic, or a value together with the heap it leaves. -/
inductive Outcome where
  | panic (msg : String)
  | ret (h : Heap) (v : ErrorValue)
  deriving DecidableEq, Repr

/-- How the `for _, arg := range args` loop of `E` ends: a `return` inside the loop,
a panic, or falling through with the heap and the value of `*e`. -/
inductive LoopResult where
  | ret (h : Heap) (v : ErrorValue)
  | panic (msg : String)
  | done (h : Heap) (e : Error)
  deriving DecidableEq, Repr

/-- The message of Go's run-time panic on an invalid pointer dereference.  Go
pointers are never dangling; the model reaches this only for an address that is not
allocated in the heap it is given. -/
def derefPanic : String := "runtime error: invalid memory address or nil pointer dereference"

/-- The loop of `E` (lines 60-87), the type switch with its cases in source order.
`e` is the pointee of the local `e`, which no other pointer reaches before `E`
returns.  Under `case error` the test `arg == nil` is never true (a nil interface
matches `case nil`), so that branch only stores the error. -/
def E.loop : Heap → Error → List Arg → LoopResult
  | h, e, [] => .done h e
  | h, e, arg :: rest =>
    match arg with
    | .code c => E.loop h { e with Code := c } rest
    | .op o => E.loop h { e with Op := o } rest
    | .str s => E.loop h { e with Err := Str s } rest
    | .kind k => E.loop h { e with Kind := k } rest
    | .errorPtr none => .ret h .nil
    | .errorPtr (some p) =>
      match h.errors[p]? with
      | none => .panic derefPanic
      | some copy =>
        let r := h.allocError copy
        E.loop r.1 { e with Err := .ptr r.2 } rest
    | .stringError s => E.loop h { e with Err := .stringError s } rest
    | .foreignError m => E.loop h { e with Err := .foreign m } rest
    | .nil => .ret h .nil
    | .unknown t v => .ret h (Errorf t v)

/-- The three merge statements of `E` (lines 99-109), applied to the values of `*e`
and `*prev`; returns the new values of both. -/
def E.merge (e prev : Error) : Error × Error :=
  let prev := if prev.Code = e.Code then { prev with Code := 0 } else prev
  let prev := if prev.Kind = e.Kind then { prev with Kind := Kind.Other } else prev
  if e.Kind = Kind.Other then
    ({ e with Kind := prev.Kind }, { prev with Kind := Kind.Other })
  else (e, prev)

/-- Go `func E(args ...interface{}) error`.  `callers` is the call stack at the call
of `runtime.Callers`.  The object `e` points to is allocated when `E` returns it. -/
def E (h : Heap) (callers : List Frame) (args : List Arg) : Outcome :=
  if args.length = 0 then .panic "No arguments provided to errors.E"
  else
    let st := callingLocations h callers 6 3
    let e : Error := { Code := 0, Op := "", Kind := Kind.Other, Err := .nil, stack := st.2 }
    match E.loop st.1 e args with
    | .ret h1 v => .ret h1 v
    | .panic msg => .panic msg
    | .done h1 e =>
      let e := if e.Err = .nil then { e with Err := Str "" } else e
      match e.Err with
      | .ptr pa =>
        match h1.errors[pa]? with
        | none => .panic derefPanic
        | some prev =>
          let m := E.merge e prev
          let r := (h1.writeError pa m.2).allocError m.1
          .ret r.1 (.ptr r.2)
      | _ =>
        let r := h1.allocError e
        .ret r.1 (.ptr r.2)

/-! ## Rendering (`errors.go`, lines 114-181) -/

/-- Go `func prepend(b *bytes.Buffer, s string)`, on the contents of the buffer. -/
def prepend (b s : String) : String :=
  if b.length = 0 then b else b ++ s

/-- The body of `func (e *Error) Error() string`, with the interface call
`e.Err.Error()` passed as `call`; `none` when that call does not return. -/
def Error.ErrorWith (call : ErrorValue → Option String) (e : Error) : Option String :=
  let b := ""
  let b := if e.Code ≠ 0 then prepend b ": " ++ "code " else b
  let b := if e.Kind ≠ 0 then prepend b ": " ++ Kind.String e.Kind else b
  let b := if e.Op ≠ "" then prepend b ": " ++ e.Op else b
  if e.Err ≠ .nil then
    match call e.Err with
    | none => none
    | some m =>
      let b := prepend b "\n" ++ m
      some (if b.length = 0 then "No error" else b)
  else
    some (if b.length = 0 then "No error" else b)

/-- The method call `v.Error()` on an interface value, following at most `fuel`
pointers to structured errors.  `none`: the call panics (nil interface, unallocated
address) or the chain is longer than `fuel`. -/
def ErrorValue.Error (h : Heap) : Nat → ErrorValue → Option String
  | _, .nil => none
  | _, .stringError s => some s
  | _, .foreign m => some m
  | 0, .ptr _ => none
  | fuel + 1, .ptr a =>
    match h.errors[a]? with
    | none => none
    | some e => Error.ErrorWith (ErrorValue.Error h fuel) e

/-- Go `func (e *Error) Error() string` on the pointee `e`. -/
def Error.Error (h : Heap) (fuel : Nat) (e : Error) : Option String :=
  Error.ErrorWith (ErrorValue.Error h fuel) e

/-! ## Vocabulary for stating the properties of `E` -/

/-- A nil fragment: the nil interface or the typed nil pointer `(*Error)(nil)`. -/
def Arg.isNil : Arg → Bool
  | .nil => true
  | .errorPtr none => true
  | _ => false

/-- A fragment whose dynamic type is none of `Code`, `Op`, `string`, `Kind`, `*Error`,
`error`. -/
def Arg.isUnknown : Arg → Bool
  | .unknown _ _ => true
  | _ => false

/-- A fragment that sets the wrapped error: a string, a non-nil `*Error` or a
non-nil `error`. -/
def Arg.isWrapped : Arg → Bool
  | .str _ => true
  | .errorPtr (some _) => true
  | .stringError _ => true
  | .foreignError _ => true
  | _ => false

/-- A pointer fragment points to an allocated object (always so in Go). -/
def Arg.allocated (h : Heap) : Arg → Bool
  | .errorPtr (some p) => decide (p < h.errors.length)
  | _ => true

/-- Every pointer among the fragments points to an allocated object. -/
def WellFormed (h : Heap) (args : List Arg) : Prop :=
  ∀ a ∈ args, a.allocated h = true

instance (h : Heap) (args : List Arg) : Decidable (WellFormed h args) := by
  unfold WellFormed; infer_instance

/-- No fragment is nil and none has an unrecognised type. -/
def Recognised (args : List Arg) : Prop :=
  ∀ a ∈ args, a.isNil = false ∧ a.isUnknown = false

instance (args : List Arg) : Decidable (Recognised args) := by
  unfold Recognised; infer_instance

/-- The value of the last `Code` fragment, `d` when there is none. -/
def lastCode : Code → List Arg → Code
  | d, [] => d
  | _, .code c :: rest => lastCode c rest
  | d, _ :: rest => lastCode d rest

/-- The value of the last `Op` fragment, `d` when there is none. -/
def lastOp : Op → List Arg → Op
  | d, [] => d
  | _, .op o :: rest => lastOp o rest
  | d, _ :: rest => lastOp d rest

/-- The value of the last `Kind` fragment, `d` when there is none. -/
def lastKind : Kind → List Arg → Kind
  | d, [] => d
  | _, .kind k :: rest => lastKind k rest
  | d, _ :: rest => lastKind d rest

/-- The last fragment that sets the wrapped error (the effective one), if any. -/
def lastWrapped : List Arg → Option Arg
  | [] => none
  | a :: rest =>
    match lastWrapped rest with
    | some w => some w
    | none => if a.isWrapped then some a else none

/-- The objects the loop of `E` allocates: one copy per non-nil `*Error` fragment. -/
def copies (h : Heap) : List Arg → List Error
  | [] => []
  | .errorPtr (some p) :: rest =>
    match h.errors[p]? with
    | some c => c :: copies h rest
    | none => copies h rest
  | _ :: rest => copies h rest

/-- How the wrapped error `v1` left by the loop relates to the effective wrapping
fragment `w`: a leaf is stored as it is, a `*Error` is stored as the address `c` of
the copy made of its pointee, the last object allocated. -/
def WrappedSpec (h h1 : Heap) (v v1 : ErrorValue) : Option Arg → Prop
  | none => v1 = v
  | some (.str s) => v1 = Str s
  | some (.stringError s) => v1 = .stringError s
  | some (.foreignError m) => v1 = .foreign m
  | some (.errorPtr (some p)) =>
    ∃ c, v1 = .ptr c ∧ h.errors.length ≤ c ∧ c + 1 = h1.errors.length ∧
      h1.errors[c]? = h.errors[p]?
  | some _ => False

/-- The wrapped error a leaf fragment gives; the empty leaf when there is none. -/
def leafValue : Option Arg → ErrorValue
  | none => Str ""
  | some (.str s) => Str s
  | some (.stringError s) => .stringError s
  | some (.foreignError m) => .foreign m
  | some _ => .nil

/-- The value of `*e` after the loop over `args`, with `v` for its `Err` field. -/
def built (h : Heap) (callers : List Frame) (args : List Arg) (v : ErrorValue) : Error :=
  { Code := lastCode 0 args, Op := lastOp "" args, Kind := lastKind Kind.Other args,
    Err := v, stack := (callingLocations h callers 6 3).2 }

/-- The front part of the text C8 describes: the present components among the literal
"code " (when `Code` is not zero), the description of the kind (when `Kind` is not
`Other`) and the op (when not empty), joined by ": ". -/
def frontText (e : Error) : String :=
  ": ".intercalate ((if e.Code ≠ 0 then ["code "] else []) ++
    (if e.Kind ≠ Kind.Other then [Kind.String e.Kind] else []) ++
    (if e.Op ≠ "" then [e.Op] else []))

/-- The text C8 describes for an error `e` whose wrapped error has message `m`: the
front part, then `m`, after a newline when the front part is not empty; and
"No error" when all of this is empty. -/
def renderedText (e : Error) (m : String) : String :=
  let text := if frontText e = "" then m else frontText e ++ "\n" ++ m
  if text = "" then "No error" else text

/-- The strings `Kind.String` can return: one per `case`, then the fall-through. -/
def kindDescriptions : List String :=
  ["item already exists", "item does not exist", "invalid operation", "permission denied",
   "I/O error", "timeout error", "database error", "encoding error", "decoding error",
   "HTTP error", "other error", "duplicate key error", "request canceled", "unimplemented",
   "unknown"]

/-- The number of positions of `s` at which `sub` occurs as a contiguous block. -/
def occurrencesIn (sub : List Char) : List Char → Nat
  | [] => if sub = [] then 1 else 0
  | c :: cs => (if sub <+: c :: cs then 1 else 0) + occurrencesIn sub cs

/-- The number of positions of the string `s` at which `sub` occurs.  When it is 1,
`s` contains `sub` exactly once, overlapping occurrences included. -/
def occurrences (sub s : String) : Nat := occurrencesIn sub.data s.data

/-- A string that cannot straddle the separators of `Error()`: it is not empty, has
no colon and no newline, and does not begin with a blank. -/
def Separable (sub : String) : Prop :=
  sub.data ≠ [] ∧ ':' ∉ sub.data ∧ '\n' ∉ sub.data ∧ sub.data.head? ≠ some ' '

instance (sub : String) : Decidable (Separable sub) := by
  unfold Separable; infer_instance

/-- The message of a leaf error. -/
def leafMessage : ErrorValue → String
  | .stringError s => s
  | .foreign m => m
  | _ => ""

/-- A `Code` fragment. -/
def Arg.isCode : Arg → Bool
  | .code _ => true
  | _ => false

/-- An `Op` fragment. -/
def Arg.isOp : Arg → Bool
  | .op _ => true
  | _ => false

/-- A `Kind` fragment. -/
def Arg.isKind : Arg → Bool
  | .kind _ => true
  | _ => false

/-- Merge rule 1 (lines 99-101): `if prev.Code == e.Code { prev.Code = 0 }`. -/
def E.rule1 (s : Error × Error) : Error × Error :=
  (s.1, if s.2.Code = s.1.Code then { s.2 with Code := 0 } else s.2)

/-- Merge rule 2 (lines 102-104): `if prev.Kind == e.Kind { prev.Kind = Other }`. -/
def E.rule2 (s : Error × Error) : Error × Error :=
  (s.1, if s.2.Kind = s.1.Kind then { s.2 with Kind := Kind.Other } else s.2)

/-- Merge rule 3 (lines 106-109): `if e.Kind == Other { e.Kind = prev.Kind;
prev.Kind = Other }`. -/
def E.rule3 (s : Error × Error) : Error × Error :=
  if s.1.Kind = Kind.Other then
    ({ s.1 with Kind := s.2.Kind }, { s.2 with Kind := Kind.Other })
  else s

/-- The pair (outer kind, inner kind) of a pair of errors. -/
def kindPair (s : Error × Error) : Kind × Kind := (s.1.Kind, s.2.Kind)

/-- Every structured error on the wrapped chain that starts at `v` has kind `Other`:
`v` is a leaf (or nil), or it points to an error of kind `Other` whose own wrapped
chain is so. -/
inductive ChainOther (h : Heap) : ErrorValue → Prop where
  | leaf (v : ErrorValue) (hv : ∀ a, v ≠ .ptr a) : ChainOther h v
  | node (a : Addr) (e : Error) (he : h.errors[a]? = some e) (hk : e.Kind = Kind.Other)
      (hc : ChainOther h e.Err) : ChainOther h (.ptr a)

/-- The heaps that calls of `E` build from a heap without structured errors, with
the addresses `E` has returned so far: every `*Error` fragment of a call is a result
of an earlier call, every other wrapped value is a plain leaf. -/
inductive BuiltBy : Heap → List Addr → Prop where
  | start (h : Heap) (he : h.errors = []) : BuiltBy h []
  | callPtr (h : Heap) (rs : List Addr) (callers : List Frame) (args : List Arg)
      (h1 : Heap) (a : Addr) (hb : BuiltBy h rs)
      (hargs : ∀ p, Arg.errorPtr (some p) ∈ args → p ∈ rs)
      (hret : E h callers args = .ret h1 (.ptr a)) : BuiltBy h1 (a :: rs)
  | callOther (h : Heap) (rs : List Addr) (callers : List Frame) (args : List Arg)
      (h1 : Heap) (v : ErrorValue) (hb : BuiltBy h rs)
      (hargs : ∀ p, Arg.errorPtr (some p) ∈ args → p ∈ rs)
      (hv : ∀ a, v ≠ .ptr a)
      (hret : E h callers args = .ret h1 v) : BuiltBy h1 rs

/-- One more wrap without a `Kind` fragment: a call of `E` over recognised fragments,
none of them a `Kind`, whose effective wrapped value is the structured error at
`s.2` in the heap `s.1`, returns the structured error at `t.2` in the heap `t.1`. -/
def WrapsNoKind (s t : Heap × Addr) : Prop :=
  ∃ callers args, WellFormed s.1 args ∧ Recognised args ∧
    lastWrapped args = some (.errorPtr (some s.2)) ∧ (∀ x ∈ args, x.isKind = false) ∧
    E s.1 callers args = .ret t.1 (.ptr t.2)

/-! ## Strings (`strings.Contains`, `Count`, `Index`, `LastIndex`, `Replace` as the
package calls them; the separators of `stack.go`, lines 11-15, are single characters) -/

/-- Go `strings.Contains(s, substr)`. -/
def strings.Contains (s substr : String) : Bool :=
  decide (substr.data <:+: s.data)

/-- Go `const sep = "/"`. -/
def sep : Char := '/'

/-- Go `const centerDot = "·"`. -/
def centerDot : Char := '·'

/-- Go `const dot = "."`. -/
def dot : Char := '.'

/-- Go `strings.Count(s, c)` for a separator of one character. -/
def strings.Count (s : List Char) (c : Char) : Nat := s.count c

/-- The position of the first `c` in `s`, if any. -/
def strings.firstIndex : List Char → Char → Option Nat
  | [], _ => none
  | x :: xs, c =>
    if x = c then some 0
    else match strings.firstIndex xs c with
      | some i => some (i + 1)
      | none => none

/-- The position of the last `c` in `s`, if any. -/
def strings.lastIndex : List Char → Char → Option Nat
  | [], _ => none
  | x :: xs, c =>
    match strings.lastIndex xs c with
    | some i => some (i + 1)
    | none => if x = c then some 0 else none

/-- Go `strings.Index(s, c)` for a separator of one character: -1 when absent. -/
def strings.Index (s : List Char) (c : Char) : Int :=
  match strings.firstIndex s c with
  | some i => (i : Int)
  | none => -1

/-- Go `strings.LastIndex(s, c)` for a separator of one character: -1 when absent. -/
def strings.LastIndex (s : List Char) (c : Char) : Int :=
  match strings.lastIndex s c with
  | some i => (i : Int)
  | none => -1

/-- Go `strings.Replace(s, old, new, -1)` for strings of one character. -/
def strings.Replace (s : List Char) (old new : Char) : List Char :=
  s.map (fun c => if c = old then new else c)

/-! ## The "no rows" predicate (`errors.go`, lines 144-146) -/

/-- Go `func IsNoRows(err error) bool`; `none` when `err.Error()` does not return. -/
def IsNoRows (h : Heap) (fuel : Nat) (err : ErrorValue) : Option Bool :=
  (ErrorValue.Error h fuel err).map (fun m => strings.Contains m "now rows in result set")

/-! ## Names of functions and files (`stack.go`, lines 122-167) -/

/-- Go `func function(name string) string`. -/
def function (name : String) : String :=
  let period := strings.Index name.data dot
  let name := if period ≥ 0 then name.data.drop (period + 1).toNat else name.data
  String.mk (strings.Replace name centerDot dot)

/-- The `for n := 0; n < goal; n++` loop of `fileName` with `k` iterations left and
the current value of `i`; `-len(sep)` is -1. -/
def fileName.loop (file : List Char) : Nat → Int → Int
  | 0, i => i
  | k + 1, i =>
    let j := strings.LastIndex (file.take i.toNat) sep
    if j = -1 then -1 else fileName.loop file k j

/-- Go `func fileName(name, file string) string`. -/
def fileName (name file : String) : String :=
  let goal := strings.Count name.data sep + 2
  let i := fileName.loop file.data goal file.data.length
  String.mk (file.data.drop (i + 1).toNat)

/-! ## Rendering the stack (`stack.go`, lines 17-20 and 40-120) -/

/-- Go `var unwantedFrames = []string{"gorilla", "runtime"}`. -/
def unwantedFrames : List String := ["gorilla", "runtime"]

/-- Go `var dunno = []byte("?")`. -/
def dunno : String := "?"

/-- Go `(*runtime.Frames).Next`, modelled from its documentation: it hands out the
next frame, and `more` tells whether a further call will return a valid frame, so it
is `false` together with the last frame.  The result pairs `(frame, more)` with the
frames left in the iterator. -/
def Frames.Next : List Frame → (Frame × Bool) × List Frame
  | [] => ((⟨"", "", 0⟩, false), [])
  | [f] => ((f, false), [])
  | f :: g :: rest => ((f, true), g :: rest)

/-- The inner loop of `frames` (lines 53-60): does the file path of the frame contain
one of `unwantedFrames`? -/
def discardRemainder (frame : Frame) : Bool :=
  unwantedFrames.any (fun f => strings.Contains frame.File f)

/-- Go `bytes.Split(data, sep)` for a separator of one character. -/
def bytes.Split : List Char → Char → List (List Char)
  | [], _ => [[]]
  | c :: cs, s =>
    if c = s then [] :: bytes.Split cs s
    else match bytes.Split cs s with
      | [] => [[c]]
      | l :: ls => (c :: l) :: ls

/-- Go `bytes.Trim(s, cutset)`. -/
def bytes.Trim (s cutset : List Char) : List Char :=
  ((s.dropWhile (fun c => decide (c ∈ cutset))).reverse.dropWhile
    (fun c => decide (c ∈ cutset))).reverse

/-- Go `func source(lines [][]byte, n int) []byte`. -/
def source (lines : List (List Char)) (n : Int) : String :=
  if n < 0 ∨ n ≥ lines.length then dunno
  else String.mk (bytes.Trim (lines.getD n.toNat []) [' ', '\t'])

/-- The body of the loop of `frames` for a frame that is kept (lines 66-82): the
line it appends, and the values of `lines` and `lastFile` it leaves.  `readFile` is
`ioutil.ReadFile`, `none` for an error. -/
def stack.frames.line (readFile : String → Option String) (frame : Frame)
    (lines : List (List Char)) (lastFile : String) :
    String × List (List Char) × String :=
  let buf := fileName frame.Function frame.File ++ ":" ++ toString frame.Line ++ " "
  if frame.File ≠ lastFile then
    match readFile frame.File with
    | none => (buf ++ function frame.Function, lines, lastFile)
    | some data =>
      let lines := bytes.Split data.data '\n'
      (buf ++ source lines (frame.Line - 1), lines, frame.File)
  else (buf ++ source lines (frame.Line - 1), lines, lastFile)

/-- The loop of `frames` (lines 47-83) on the frames left in the iterator, by the
three results of `Next`: no frame, the last frame (`more` is false: `break`), a frame
with more to come.  Returns the lines and the frames left in the iterator. -/
def stack.frames.loop (readFile : String → Option String) :
    List Frame → List String → List (List Char) → String → List String × List Frame
  | [], frames, _, _ => (frames, [])
  | [_], frames, _, _ => (frames, [])
  | frame :: g :: rest, frames, lines, lastFile =>
    if discardRemainder frame then (frames, g :: rest)
    else
      let r := stack.frames.line readFile frame lines lastFile
      stack.frames.loop readFile (g :: rest) (frames ++ [r.1]) r.2.1 r.2.2

/-- Go `func (st *stack) frames() []string`: the lines, and the stack with its
iterator advanced. -/
def stack.frames (readFile : String → Option String) (st : stack) : List String × stack :=
  let r := stack.frames.loop readFile st.Frames [] [] ""
  (r.1, { st with Frames := r.2 })

/-- The test and assignment that open `Format` and `MarshalJSON`:
`if len(st.formatted) == 0 { st.formatted = st.frames() }`. -/
def stack.render (readFile : String → Option String) (st : stack) : stack :=
  if st.formatted.length = 0 then
    let r := stack.frames readFile st
    { r.2 with formatted := r.1 }
  else st

/-- Go `func (st *stack) Format(s fmt.State, verb rune)`: the text written to `s`,
and the stack afterwards. -/
def stack.Format (readFile : String → Option String) (st : stack) : String × stack :=
  let st := stack.render readFile st
  ("\n" ++ "\n".intercalate st.formatted, st)

/-- The loop of `MarshalJSON` over `st.formatted` from index `i` on, with the contents
of `buf`; `quote` is `fmt`'s `%q`. -/
def stack.MarshalJSON.loop (quote : String → String) : Nat → List String → String → String
  | _, [], buf => buf
  | i, frame :: rest, buf =>
    stack.MarshalJSON.loop quote (i + 1) rest
      ((if i > 0 then buf ++ "," else buf) ++ quote frame)

/-- Go `func (st *stack) MarshalJSON() ([]byte, error)`: the bytes (the error is
always nil), and the stack afterwards. -/
def stack.MarshalJSON (quote : String → String) (readFile : String → Option String)
    (st : stack) : String × stack :=
  let st := stack.render readFile st
  (stack.MarshalJSON.loop quote 0 st.formatted "[" ++ "]", st)

/-- The frames of a list rendered one after the other by the body of the loop, with
the values of `lines` and `lastFile` left at the end. -/
def renderFrames (readFile : String → Option String) :
    List Frame → List (List Char) → String → List String × List (List Char) × String
  | [], lines, lastFile => ([], lines, lastFile)
  | f :: fs, lines, lastFile =>
    let r := stack.frames.line readFile f lines lastFile
    let t := renderFrames readFile fs r.2.1 r.2.2
    (r.1 :: t.1, t.2)

/-! ## JSON (`errors.go`, lines 148-174) -/

/-- Overwrite the `stack` object at address `a`. -/
def Heap.writeStack (h : Heap) (a : Addr) (st : stack) : Heap :=
  { h with stackObjs := h.stackObjs.set a st }

/-- Go `json.Marshal(e.stack)` for the `*stack` of an error: "null" for a nil
pointer; else the output of `(*stack).MarshalJSON`, which `encoding/json` checks and
compacts (`jsonCompact`, `none` when it rejects the text).  `none`: an error is
returned, or the pointer is not allocated. -/
def jsonMarshalStack (quote : String → String) (jsonCompact : String → Option String)
    (readFile : String → Option String) (h : Heap) : Option Addr → Option (String × Heap)
  | none => some ("null", h)
  | some a =>
    match h.stackObjs[a]? with
    | none => none
    | some st =>
      let r := stack.MarshalJSON quote readFile st
      match jsonCompact r.1 with
      | none => none
      | some buf => some (buf, h.writeStack a r.2)

/-- Go `func (e *Error) MarshalJSON() ([]byte, error)`: the bytes and the heap
afterwards; `none` when `e.Err.Error()` does not return or `json.Marshal` fails.
`strconv.Itoa` is `toString`, `quote` is `fmt`'s `%q`. -/
def Error.MarshalJSON (quote : String → String) (jsonCompact : String → Option String)
    (readFile : String → Option String) (h : Heap) (fuel : Nat) (e : errors.Error) :
    Option (String × Heap) :=
  let b := ""
  let b := b ++ "\x7b\"code\":"
  let b := b ++ toString e.Code
  let b := b ++ ",\"op\":\""
  let b := b ++ e.Op
  let b := b ++ "\",\"kind\":"
  let b := b ++ toString e.Kind
  let b := b ++ ",\"err\":"
  match ErrorValue.Error h fuel e.Err with
  | none => none
  | some m =>
    let b := b ++ quote m
    let b := b ++ ",\"stack\":"
    match jsonMarshalStack quote jsonCompact readFile h e.stack with
    | none => none
    | some r => some (b ++ r.1 ++ "\x7d", r.2)

/-! ## The loop of `E` -/

theorem WellFormed_tail {h : Heap} {a : Arg} {rest : List Arg}
    (hwf : WellFormed h (a :: rest)) : WellFormed h rest :=
  fun x hx => hwf x (List.mem_cons_of_mem _ hx)

theorem Recognised_tail {a : Arg} {rest : List Arg}
    (hr : Recognised (a :: rest)) : Recognised rest :=
  fun x hx => hr x (List.mem_cons_of_mem _ hx)

theorem WellFormed_alloc {h : Heap} {args : List Arg} (c : Error)
    (hwf : WellFormed h args) : WellFormed (h.allocError c).1 args := by
  intro a ha
  have h1 := hwf a ha
  cases a with
  | errorPtr p =>
    cases p with
    | none => rfl
    | some p =>
      simp only [Arg.allocated, Heap.allocError, decide_eq_true_eq, List.length_append,
        List.length_singleton] at h1 ⊢
      exact Nat.lt_succ_of_lt h1
  | _ => rfl

theorem WellFormed_lookup {h : Heap} {args : List Arg} {p : Addr}
    (hwf : WellFormed h args) (hp : Arg.errorPtr (some p) ∈ args) :
    p < h.errors.length := by
  have h1 := hwf _ hp
  simpa [Arg.allocated] using h1

theorem lastWrapped_mem : ∀ (args : List Arg) (w : Arg),
    lastWrapped args = some w → w ∈ args ∧ w.isWrapped = true := by
  intro args
  induction args with
  | nil => intro w hw; simp [lastWrapped] at hw
  | cons a rest ih =>
    intro w hw
    unfold lastWrapped at hw
    cases hr : lastWrapped rest with
    | some w1 =>
      rw [hr] at hw
      simp only [Option.some.injEq] at hw
      subst hw
      exact ⟨List.mem_cons_of_mem _ (ih _ hr).1, (ih _ hr).2⟩
    | none =>
      rw [hr] at hw
      by_cases ha : a.isWrapped = true
      · simp only [ha, if_true, Option.some.injEq] at hw
        subst hw
        exact ⟨List.mem_cons_self _ _, ha⟩
      · simp [ha] at hw

theorem copies_alloc (c : Error) : ∀ (args : List Arg) (h : Heap),
    WellFormed h args → copies (h.allocError c).1 args = copies h args := by
  intro args
  induction args with
  | nil => intro h _; rfl
  | cons a rest ih =>
    intro h hwf
    have ih1 := ih h (WellFormed_tail hwf)
    cases a with
    | errorPtr p =>
      cases p with
      | none => simpa [copies] using ih1
      | some p =>
        have hp : p < h.errors.length := WellFormed_lookup hwf (List.mem_cons_self _ _)
        have hl : (h.allocError c).1.errors[p]? = h.errors[p]? := by
          simp only [Heap.allocError]
          exact List.getElem?_append_left hp
        simp only [copies, hl, ih1]
    | _ => simpa [copies] using ih1

theorem copies_eq_nil (h : Heap) : ∀ (args : List Arg),
    lastWrapped args = none → copies h args = [] := by
  intro args
  induction args with
  | nil => intro _; rfl
  | cons a rest ih =>
    intro hw
    unfold lastWrapped at hw
    cases hr : lastWrapped rest with
    | some w1 => rw [hr] at hw; simp at hw
    | none =>
      rw [hr] at hw
      have ih1 := ih hr
      cases a with
      | errorPtr p =>
        cases p with
        | none => simpa [copies] using ih1
        | some p => simp [Arg.isWrapped] at hw
      | _ => simpa [copies] using ih1

theorem lastWrapped_cons_of_not_wrapped (a : Arg) (rest : List Arg)
    (ha : a.isWrapped = false) : lastWrapped (a :: rest) = lastWrapped rest := by
  cases hr : lastWrapped rest <;> simp [lastWrapped, hr, ha]

theorem lastWrapped_cons_of_wrapped (a : Arg) (rest : List Arg)
    (ha : a.isWrapped = true) :
    lastWrapped (a :: rest) = some ((lastWrapped rest).getD a) := by
  cases hr : lastWrapped rest <;> simp [lastWrapped, hr, ha]

/-- The loop over fragments that are neither nil nor of an unrecognised type, with
every pointer allocated: it falls through, allocates exactly the copies, leaves the
stack objects alone, and `*e` holds the last fragment of each kind. -/
theorem E_loop_done : ∀ (args : List Arg) (h : Heap) (e : Error),
    WellFormed h args → Recognised args →
    ∃ h1 e1, E.loop h e args = .done h1 e1 ∧ h1.stackObjs = h.stackObjs ∧
      h1.errors = h.errors ++ copies h args ∧
      e1.Code = lastCode e.Code args ∧ e1.Op = lastOp e.Op args ∧
      e1.Kind = lastKind e.Kind args ∧ e1.stack = e.stack ∧
      WrappedSpec h h1 e.Err e1.Err (lastWrapped args) := by
  intro args
  induction args with
  | nil =>
    intro h e _ _
    exact ⟨h, e, rfl, rfl, by simp [copies], rfl, rfl, rfl, rfl, rfl⟩
  | cons a rest ih =>
    intro h e hwf hrec
    have hra := hrec a (List.mem_cons_self _ _)
    cases a with
    | nil => simp [Arg.isNil] at hra
    | unknown t v => simp [Arg.isUnknown] at hra
    | code c =>
      obtain ⟨h1, e1, hl, hs, he, hc, ho, hk, hst, hw⟩ :=
        ih h { e with Code := c } (WellFormed_tail hwf) (Recognised_tail hrec)
      refine ⟨h1, e1, by simpa [E.loop] using hl, hs, by simpa [copies] using he,
        by simpa [lastCode] using hc, by simpa [lastOp] using ho,
        by simpa [lastKind] using hk, hst, ?_⟩
      rw [lastWrapped_cons_of_not_wrapped (.code c) rest rfl]; exact hw
    | op o =>
      obtain ⟨h1, e1, hl, hs, he, hc, ho, hk, hst, hw⟩ :=
        ih h { e with Op := o } (WellFormed_tail hwf) (Recognised_tail hrec)
      refine ⟨h1, e1, by simpa [E.loop] using hl, hs, by simpa [copies] using he,
        by simpa [lastCode] using hc, by simpa [lastOp] using ho,
        by simpa [lastKind] using hk, hst, ?_⟩
      rw [lastWrapped_cons_of_not_wrapped (.op o) rest rfl]; exact hw
    | kind k =>
      obtain ⟨h1, e1, hl, hs, he, hc, ho, hk, hst, hw⟩ :=
        ih h { e with Kind := k } (WellFormed_tail hwf) (Recognised_tail hrec)
      refine ⟨h1, e1, by simpa [E.loop] using hl, hs, by simpa [copies] using he,
        by simpa [lastCode] using hc, by simpa [lastOp] using ho,
        by simpa [lastKind] using hk, hst, ?_⟩
      rw [lastWrapped_cons_of_not_wrapped (.kind k) rest rfl]; exact hw
    | str s =>
      obtain ⟨h1, e1, hl, hs, he, hc, ho, hk, hst, hw⟩ :=
        ih h { e with Err := Str s } (WellFormed_tail hwf) (Recognised_tail hrec)
      refine ⟨h1, e1, by simpa [E.loop] using hl, hs, by simpa [copies] using he,
        by simpa [lastCode] using hc, by simpa [lastOp] using ho,
        by simpa [lastKind] using hk, hst, ?_⟩
      rw [lastWrapped_cons_of_wrapped (.str s) rest rfl]
      cases hr : lastWrapped rest with
      | none => rw [hr] at hw; simpa [WrappedSpec] using hw
      | some w =>
        rw [hr] at hw
        cases w with
        | errorPtr p => cases p <;> exact hw
        | _ => exact hw
    | stringError s =>
      obtain ⟨h1, e1, hl, hs, he, hc, ho, hk, hst, hw⟩ :=
        ih h { e with Err := .stringError s } (WellFormed_tail hwf) (Recognised_tail hrec)
      refine ⟨h1, e1, by simpa [E.loop] using hl, hs, by simpa [copies] using he,
        by simpa [lastCode] using hc, by simpa [lastOp] using ho,
        by simpa [lastKind] using hk, hst, ?_⟩
      rw [lastWrapped_cons_of_wrapped (.stringError s) rest rfl]
      cases hr : lastWrapped rest with
      | none => rw [hr] at hw; simpa [WrappedSpec] using hw
      | some w =>
        rw [hr] at hw
        cases w with
        | errorPtr p => cases p <;> exact hw
        | _ => exact hw
    | foreignError m =>
      obtain ⟨h1, e1, hl, hs, he, hc, ho, hk, hst, hw⟩ :=
        ih h { e with Err := .foreign m } (WellFormed_tail hwf) (Recognised_tail hrec)
      refine ⟨h1, e1, by simpa [E.loop] using hl, hs, by simpa [copies] using he,
        by simpa [lastCode] using hc, by simpa [lastOp] using ho,
        by simpa [lastKind] using hk, hst, ?_⟩
      rw [lastWrapped_cons_of_wrapped (.foreignError m) rest rfl]
      cases hr : lastWrapped rest with
      | none => rw [hr] at hw; simpa [WrappedSpec] using hw
      | some w =>
        rw [hr] at hw
        cases w with
        | errorPtr p => cases p <;> exact hw
        | _ => exact hw
    | errorPtr p =>
      cases p with
      | none => simp [Arg.isNil] at hra
      | some p =>
        have hp : p < h.errors.length := WellFormed_lookup hwf (List.mem_cons_self _ _)
        have hget : h.errors[p]? = some h.errors[p] := List.getElem?_eq_getElem hp
        obtain ⟨h1, e1, hl, hs, he, hc, ho, hk, hst, hw⟩ :=
          ih (h.allocError h.errors[p]).1
            { e with Err := .ptr (h.allocError h.errors[p]).2 }
            (WellFormed_alloc _ (WellFormed_tail hwf)) (Recognised_tail hrec)
        rw [copies_alloc _ _ _ (WellFormed_tail hwf)] at he
        have he1 : h1.errors = h.errors ++ copies h (Arg.errorPtr (some p) :: rest) := by
          rw [he]; simp [copies, hget, Heap.allocError]
        refine ⟨h1, e1, by simpa [E.loop, hget] using hl, by simpa [Heap.allocError] using hs,
          he1, by simpa [lastCode] using hc, by simpa [lastOp] using ho,
          by simpa [lastKind] using hk, hst, ?_⟩
        rw [lastWrapped_cons_of_wrapped (.errorPtr (some p)) rest rfl]
        cases hr : lastWrapped rest with
        | none =>
          rw [hr] at hw
          have hnil := copies_eq_nil h rest hr
          simp only [WrappedSpec, Heap.allocError] at hw
          simp only [Option.getD_none, WrappedSpec]
          refine ⟨h.errors.length, hw, Nat.le_refl _, ?_, ?_⟩
          · rw [he, hnil]; simp [Heap.allocError]
          · rw [he, hnil, hget]; simp [Heap.allocError]
        | some w =>
          rw [hr] at hw
          have hmem := (lastWrapped_mem rest w hr).1
          cases w with
          | errorPtr q =>
            cases q with
            | none => exact hw
            | some q =>
              have hq : q < h.errors.length := WellFormed_lookup (WellFormed_tail hwf) hmem
              simp only [WrappedSpec, Heap.allocError] at hw
              simp only [Option.getD_some, WrappedSpec]
              obtain ⟨c, hc1, hc2, hc3, hc4⟩ := hw
              refine ⟨c, hc1, ?_, hc3, ?_⟩
              · simp only [List.length_append, List.length_singleton] at hc2
                exact Nat.le_of_succ_le hc2
              · rw [hc4]; exact List.getElem?_append_left hq
          | _ => exact hw

theorem Recognised_cons {a : Arg} {rest : List Arg} (ha : a.isNil = false)
    (hu : a.isUnknown = false) (hr : Recognised rest) : Recognised (a :: rest) := by
  intro x hx
  rcases List.mem_cons.1 hx with rfl | hx
  · exact ⟨ha, hu⟩
  · exact hr x hx

/-- With every pointer allocated the loop never panics: it returns early, leaving the
old objects in place, or all fragments are recognised. -/
theorem E_loop_total : ∀ (args : List Arg) (h : Heap) (e : Error),
    WellFormed h args →
    (∃ h1 v t, E.loop h e args = .ret h1 v ∧ h1.errors = h.errors ++ t ∧
        ∀ a, v ≠ .ptr a) ∨
      Recognised args := by
  intro args
  induction args with
  | nil => intro h e _; exact Or.inr (fun x hx => by simp at hx)
  | cons a rest ih =>
    intro h e hwf
    cases a with
    | nil => exact Or.inl ⟨h, .nil, [], by simp [E.loop], by simp, by simp⟩
    | unknown t v => exact Or.inl ⟨h, Errorf t v, [], by simp [E.loop], by simp, by simp [Errorf]⟩
    | code c =>
      rcases ih h { e with Code := c } (WellFormed_tail hwf) with ⟨h1, v, t, hl, ht, hv⟩ | hr
      · exact Or.inl ⟨h1, v, t, by simpa [E.loop] using hl, ht, hv⟩
      · exact Or.inr (Recognised_cons rfl rfl hr)
    | op o =>
      rcases ih h { e with Op := o } (WellFormed_tail hwf) with ⟨h1, v, t, hl, ht, hv⟩ | hr
      · exact Or.inl ⟨h1, v, t, by simpa [E.loop] using hl, ht, hv⟩
      · exact Or.inr (Recognised_cons rfl rfl hr)
    | kind k =>
      rcases ih h { e with Kind := k } (WellFormed_tail hwf) with ⟨h1, v, t, hl, ht, hv⟩ | hr
      · exact Or.inl ⟨h1, v, t, by simpa [E.loop] using hl, ht, hv⟩
      · exact Or.inr (Recognised_cons rfl rfl hr)
    | str s =>
      rcases ih h { e with Err := Str s } (WellFormed_tail hwf) with ⟨h1, v, t, hl, ht, hv⟩ | hr
      · exact Or.inl ⟨h1, v, t, by simpa [E.loop] using hl, ht, hv⟩
      · exact Or.inr (Recognised_cons rfl rfl hr)
    | stringError s =>
      rcases ih h { e with Err := .stringError s } (WellFormed_tail hwf) with
        ⟨h1, v, t, hl, ht, hv⟩ | hr
      · exact Or.inl ⟨h1, v, t, by simpa [E.loop] using hl, ht, hv⟩
      · exact Or.inr (Recognised_cons rfl rfl hr)
    | foreignError m =>
      rcases ih h { e with Err := .foreign m } (WellFormed_tail hwf) with
        ⟨h1, v, t, hl, ht, hv⟩ | hr
      · exact Or.inl ⟨h1, v, t, by simpa [E.loop] using hl, ht, hv⟩
      · exact Or.inr (Recognised_cons rfl rfl hr)
    | errorPtr p =>
      cases p with
      | none => exact Or.inl ⟨h, .nil, [], by simp [E.loop], by simp, by simp⟩
      | some p =>
        have hp : p < h.errors.length := WellFormed_lookup hwf (List.mem_cons_self _ _)
        have hget : h.errors[p]? = some h.errors[p] := List.getElem?_eq_getElem hp
        rcases ih (h.allocError h.errors[p]).1
            { e with Err := .ptr (h.allocError h.errors[p]).2 }
            (WellFormed_alloc _ (WellFormed_tail hwf)) with ⟨h1, v, t, hl, ht, hv⟩ | hr
        · refine Or.inl ⟨h1, v, h.errors[p] :: t, by simpa [E.loop, hget] using hl, ?_, hv⟩
          rw [ht]; simp [Heap.allocError]
        · exact Or.inr (Recognised_cons rfl rfl hr)

/-- A nil fragment that no fragment of unrecognised type precedes ends the loop with
`return nil`. -/
theorem E_loop_nil (a : Arg) (post : List Arg) (ha : a.isNil = true) :
    ∀ (pre : List Arg) (h : Heap) (e : Error), WellFormed h pre →
    (∀ x ∈ pre, x.isUnknown = false) →
    ∃ h1 t, E.loop h e (pre ++ a :: post) = .ret h1 .nil ∧ h1.errors = h.errors ++ t := by
  intro pre
  induction pre with
  | nil =>
    intro h e _ _
    cases a with
    | nil => exact ⟨h, [], by simp [E.loop], by simp⟩
    | errorPtr p =>
      cases p with
      | none => exact ⟨h, [], by simp [E.loop], by simp⟩
      | some p => simp [Arg.isNil] at ha
    | _ => simp [Arg.isNil] at ha
  | cons x rest ih =>
    intro h e hwf hun
    have hun1 : ∀ y ∈ rest, y.isUnknown = false :=
      fun y hy => hun y (List.mem_cons_of_mem _ hy)
    have hx := hun x (List.mem_cons_self _ _)
    cases x with
    | nil => exact ⟨h, [], by simp [E.loop], by simp⟩
    | unknown t v => simp [Arg.isUnknown] at hx
    | code c =>
      obtain ⟨h1, t, hl, ht⟩ := ih h { e with Code := c } (WellFormed_tail hwf) hun1
      exact ⟨h1, t, by simpa [E.loop] using hl, ht⟩
    | op o =>
      obtain ⟨h1, t, hl, ht⟩ := ih h { e with Op := o } (WellFormed_tail hwf) hun1
      exact ⟨h1, t, by simpa [E.loop] using hl, ht⟩
    | kind k =>
      obtain ⟨h1, t, hl, ht⟩ := ih h { e with Kind := k } (WellFormed_tail hwf) hun1
      exact ⟨h1, t, by simpa [E.loop] using hl, ht⟩
    | str s =>
      obtain ⟨h1, t, hl, ht⟩ := ih h { e with Err := Str s } (WellFormed_tail hwf) hun1
      exact ⟨h1, t, by simpa [E.loop] using hl, ht⟩
    | stringError s =>
      obtain ⟨h1, t, hl, ht⟩ :=
        ih h { e with Err := .stringError s } (WellFormed_tail hwf) hun1
      exact ⟨h1, t, by simpa [E.loop] using hl, ht⟩
    | foreignError m =>
      obtain ⟨h1, t, hl, ht⟩ :=
        ih h { e with Err := .foreign m } (WellFormed_tail hwf) hun1
      exact ⟨h1, t, by simpa [E.loop] using hl, ht⟩
    | errorPtr p =>
      cases p with
      | none => exact ⟨h, [], by simp [E.loop], by simp⟩
      | some p =>
        have hp : p < h.errors.length := WellFormed_lookup hwf (List.mem_cons_self _ _)
        have hget : h.errors[p]? = some h.errors[p] := List.getElem?_eq_getElem hp
        obtain ⟨h1, t, hl, ht⟩ := ih (h.allocError h.errors[p]).1
            { e with Err := .ptr (h.allocError h.errors[p]).2 }
            (WellFormed_alloc _ (WellFormed_tail hwf)) hun1
        refine ⟨h1, h.errors[p] :: t, by simpa [E.loop, hget] using hl, ?_⟩
        rw [ht]; simp [Heap.allocError]

/-- Recognised fragments followed by one of unrecognised type: the loop returns the
leaf built by `Errorf` for that fragment. -/
theorem E_loop_unknown (typ val : String) (post : List Arg) :
    ∀ (pre : List Arg) (h : Heap) (e : Error), WellFormed h pre → Recognised pre →
    ∃ h1 t, E.loop h e (pre ++ Arg.unknown typ val :: post) = .ret h1 (Errorf typ val) ∧
      h1.errors = h.errors ++ t := by
  intro pre
  induction pre with
  | nil => intro h e _ _; exact ⟨h, [], by simp [E.loop], by simp⟩
  | cons x rest ih =>
    intro h e hwf hrec
    have hx := hrec x (List.mem_cons_self _ _)
    cases x with
    | nil => simp [Arg.isNil] at hx
    | unknown t v => simp [Arg.isUnknown] at hx
    | code c =>
      obtain ⟨h1, t, hl, ht⟩ :=
        ih h { e with Code := c } (WellFormed_tail hwf) (Recognised_tail hrec)
      exact ⟨h1, t, by simpa [E.loop] using hl, ht⟩
    | op o =>
      obtain ⟨h1, t, hl, ht⟩ :=
        ih h { e with Op := o } (WellFormed_tail hwf) (Recognised_tail hrec)
      exact ⟨h1, t, by simpa [E.loop] using hl, ht⟩
    | kind k =>
      obtain ⟨h1, t, hl, ht⟩ :=
        ih h { e with Kind := k } (WellFormed_tail hwf) (Recognised_tail hrec)
      exact ⟨h1, t, by simpa [E.loop] using hl, ht⟩
    | str s =>
      obtain ⟨h1, t, hl, ht⟩ :=
        ih h { e with Err := Str s } (WellFormed_tail hwf) (Recognised_tail hrec)
      exact ⟨h1, t, by simpa [E.loop] using hl, ht⟩
    | stringError s =>
      obtain ⟨h1, t, hl, ht⟩ :=
        ih h { e with Err := .stringError s } (WellFormed_tail hwf) (Recognised_tail hrec)
      exact ⟨h1, t, by simpa [E.loop] using hl, ht⟩
    | foreignError m =>
      obtain ⟨h1, t, hl, ht⟩ :=
        ih h { e with Err := .foreign m } (WellFormed_tail hwf) (Recognised_tail hrec)
      exact ⟨h1, t, by simpa [E.loop] using hl, ht⟩
    | errorPtr p =>
      cases p with
      | none => simp [Arg.isNil] at hx
      | some p =>
        have hp : p < h.errors.length := WellFormed_lookup hwf (List.mem_cons_self _ _)
        have hget : h.errors[p]? = some h.errors[p] := List.getElem?_eq_getElem hp
        obtain ⟨h1, t, hl, ht⟩ := ih (h.allocError h.errors[p]).1
            { e with Err := .ptr (h.allocError h.errors[p]).2 }
            (WellFormed_alloc _ (WellFormed_tail hwf)) (Recognised_tail hrec)
        refine ⟨h1, h.errors[p] :: t, by simpa [E.loop, hget] using hl, ?_⟩
        rw [ht]; simp [Heap.allocError]

/-! ## `E` as a whole -/

theorem callingLocations_errors (h : Heap) (callers : List Frame) (depth skip : Nat) :
    (callingLocations h callers depth skip).1.errors = h.errors := by
  unfold callingLocations
  simp only
  split <;> rfl

theorem WellFormed_of_errors_eq {h h1 : Heap} {args : List Arg}
    (he : h1.errors = h.errors) (hwf : WellFormed h args) : WellFormed h1 args := by
  intro a ha
  have h2 := hwf a ha
  cases a with
  | errorPtr p =>
    cases p with
    | none => rfl
    | some p => simpa [Arg.allocated, he] using h2
  | _ => rfl

theorem copies_of_errors_eq {h h1 : Heap} (he : h1.errors = h.errors) :
    ∀ args : List Arg, copies h1 args = copies h args := by
  intro args
  induction args with
  | nil => rfl
  | cons a rest ih =>
    cases a with
    | errorPtr p =>
      cases p with
      | none => simpa [copies] using ih
      | some p => simp only [copies, he, ih]
    | _ => simpa [copies] using ih

/-- Recognised fragments whose effective wrapped value is a leaf (or absent): `E`
allocates the copies of the `*Error` fragments it met and then the result. -/
theorem E_leaf (h : Heap) (callers : List Frame) (args : List Arg) (hne : args ≠ [])
    (hwf : WellFormed h args) (hrec : Recognised args)
    (hw : ∀ p, lastWrapped args ≠ some (.errorPtr (some p))) :
    ∃ h1, E h callers args = .ret h1 (.ptr (h.errors ++ copies h args).length) ∧
      h1.errors = h.errors ++ copies h args ++
        [built h callers args (leafValue (lastWrapped args))] ∧
      h1.stackObjs = (callingLocations h callers 6 3).1.stackObjs := by
  have hce := callingLocations_errors h callers 6 3
  obtain ⟨h1, e1, hl, hs, he, hc, ho, hk, hst, hwr⟩ :=
    E_loop_done args (callingLocations h callers 6 3).1
      { Code := 0, Op := "", Kind := Kind.Other, Err := .nil,
        stack := (callingLocations h callers 6 3).2 }
      (WellFormed_of_errors_eq hce hwf) hrec
  rw [hce, copies_of_errors_eq hce] at he
  have hlen : ¬ args.length = 0 := by
    intro h0; exact hne (List.length_eq_zero.1 h0)
  have hfin : (if e1.Err = .nil then { e1 with Err := Str "" } else e1) =
      built h callers args (leafValue (lastWrapped args)) := by
    cases hlw : lastWrapped args with
    | none =>
      rw [hlw] at hwr
      simp only [WrappedSpec] at hwr
      cases e1
      simp_all [built, leafValue]
    | some w =>
      rw [hlw] at hwr
      have hww := (lastWrapped_mem args w hlw).2
      cases w with
      | errorPtr q =>
        cases q with
        | none => simp [Arg.isWrapped] at hww
        | some q => exact absurd hlw (hw q)
      | str s =>
        simp only [WrappedSpec, Str] at hwr
        cases e1
        simp_all [built, leafValue, Str]
      | stringError s =>
        simp only [WrappedSpec] at hwr
        cases e1
        simp_all [built, leafValue]
      | foreignError m =>
        simp only [WrappedSpec] at hwr
        cases e1
        simp_all [built, leafValue]
      | _ => simp [Arg.isWrapped] at hww
  have hnp : ∀ a, (built h callers args (leafValue (lastWrapped args))).Err ≠ .ptr a := by
    intro a
    cases hlw : lastWrapped args with
    | none => simp [built, leafValue, Str]
    | some w =>
      cases w with
      | errorPtr q => cases q <;> simp [built, leafValue]
      | _ => simp [built, leafValue, Str]
  refine ⟨(h1.allocError (built h callers args (leafValue (lastWrapped args)))).1, ?_, ?_, ?_⟩
  · unfold E
    simp only [hlen, if_false, hl, hfin]
    simp [Heap.allocError, he]
  · simp [Heap.allocError, he]
  · simpa [Heap.allocError] using hs

/-- Recognised fragments whose effective wrapped value is a `*Error` with pointee
`inner`: the copy is the last object the loop allocates, at `c`; `E` overwrites it
with the merged copy and allocates the merged outer error right after it. -/
theorem E_structured (h : Heap) (callers : List Frame) (args : List Arg) (p : Addr)
    (inner : Error) (hwf : WellFormed h args) (hrec : Recognised args)
    (hw : lastWrapped args = some (.errorPtr (some p)))
    (hp : h.errors[p]? = some inner) :
    ∃ h1 c, E h callers args = .ret h1 (.ptr (c + 1)) ∧ h.errors.length ≤ c ∧
      c + 1 = (h.errors ++ copies h args).length ∧
      (h.errors ++ copies h args)[c]? = some inner ∧
      h1.errors = (h.errors ++ copies h args).set c
          (E.merge (built h callers args (.ptr c)) inner).2 ++
        [(E.merge (built h callers args (.ptr c)) inner).1] ∧
      h1.stackObjs = (callingLocations h callers 6 3).1.stackObjs := by
  have hce := callingLocations_errors h callers 6 3
  obtain ⟨h1, e1, hl, hs, he, hc, ho, hk, hst, hwr⟩ :=
    E_loop_done args (callingLocations h callers 6 3).1
      { Code := 0, Op := "", Kind := Kind.Other, Err := .nil,
        stack := (callingLocations h callers 6 3).2 }
      (WellFormed_of_errors_eq hce hwf) hrec
  rw [hce, copies_of_errors_eq hce] at he
  rw [hw] at hwr
  simp only [WrappedSpec, hce] at hwr
  obtain ⟨c, hc1, hc2, hc3, hc4⟩ := hwr
  have hne : ¬ args.length = 0 := by
    intro h0
    rw [List.length_eq_zero.1 h0] at hw
    simp [lastWrapped] at hw
  have he1 : e1 = built h callers args (.ptr c) := by
    cases e1
    simp_all [built]
  have hnn : ¬ (built h callers args (.ptr c)).Err = .nil := by simp [built]
  have hlook : h1.errors[c]? = some inner := by rw [hc4, hp]
  refine ⟨((h1.writeError c (E.merge (built h callers args (.ptr c)) inner).2).allocError
      (E.merge (built h callers args (.ptr c)) inner).1).1, c, ?_, hc2, ?_, ?_, ?_, ?_⟩
  · unfold E
    simp only [hne, if_false, hl, he1, hnn]
    have hb : (built h callers args (.ptr c)).Err = .ptr c := rfl
    simp only [hb, hlook]
    simp [Heap.allocError, Heap.writeError, he]
    rw [hc3, he, List.length_append]
  · rw [hc3, he]
  · rw [← he]; exact hlook
  · simp [Heap.allocError, Heap.writeError, he]
  · simpa [Heap.allocError, Heap.writeError] using hs

theorem merge_fst_Code (e prev : Error) : (E.merge e prev).1.Code = e.Code := by
  unfold E.merge; simp only; split <;> rfl

theorem merge_fst_Op (e prev : Error) : (E.merge e prev).1.Op = e.Op := by
  unfold E.merge; simp only; split <;> rfl

theorem merge_fst_Err (e prev : Error) : (E.merge e prev).1.Err = e.Err := by
  unfold E.merge; simp only; split <;> rfl

theorem merge_snd_Op (e prev : Error) : (E.merge e prev).2.Op = prev.Op := by
  unfold E.merge; simp only; split <;> split <;> split <;> rfl

theorem merge_snd_Err (e prev : Error) : (E.merge e prev).2.Err = prev.Err := by
  unfold E.merge; simp only; split <;> split <;> split <;> rfl

theorem merge_snd_Code (e prev : Error) :
    (E.merge e prev).2.Code = if prev.Code = e.Code then 0 else prev.Code := by
  unfold E.merge
  by_cases h1 : prev.Code = e.Code <;> by_cases h2 : prev.Kind = e.Kind <;>
    by_cases h3 : e.Kind = Kind.Other <;> simp [h1, h2, h3] <;> split <;> rfl

/-- After the merge the two errors share a code only if it is zero. -/
theorem merge_Code (e prev : Error) :
    (E.merge e prev).1.Code = (E.merge e prev).2.Code → (E.merge e prev).1.Code = 0 := by
  rw [merge_fst_Code, merge_snd_Code]
  by_cases h1 : prev.Code = e.Code
  · rw [if_pos h1]; exact id
  · rw [if_neg h1]; intro hh; exact absurd hh.symm h1

/-- The kinds after the merge, by the three cases of the kind of `e`. -/
theorem merge_Kind (e prev : Error) :
    (e.Kind = Kind.Other →
      (E.merge e prev).1.Kind = prev.Kind ∧ (E.merge e prev).2.Kind = Kind.Other) ∧
    (e.Kind ≠ Kind.Other → e.Kind ≠ prev.Kind →
      (E.merge e prev).1.Kind = e.Kind ∧ (E.merge e prev).2.Kind = prev.Kind) ∧
    (e.Kind = prev.Kind →
      (E.merge e prev).1.Kind = e.Kind ∧ (E.merge e prev).2.Kind = Kind.Other) := by
  unfold E.merge
  by_cases h1 : prev.Code = e.Code <;> by_cases h2 : prev.Kind = e.Kind <;>
    by_cases h3 : e.Kind = Kind.Other <;> simp_all [eq_comm]

theorem E_no_args (h : Heap) (callers : List Frame) :
    E h callers [] = .panic "No arguments provided to errors.E" := by
  simp [E]

/-- A non-empty call with every pointer allocated returns inside the loop, with a
value that is no `*Error` and the old objects in place, or all its fragments are
recognised. -/
theorem E_cases (h : Heap) (callers : List Frame) (args : List Arg) (hne : args ≠ [])
    (hwf : WellFormed h args) :
    (∃ h1 v t, E h callers args = .ret h1 v ∧ h1.errors = h.errors ++ t ∧
        ∀ a, v ≠ .ptr a) ∨
      Recognised args := by
  have hce := callingLocations_errors h callers 6 3
  have hlen : ¬ args.length = 0 := by
    intro h0; exact hne (List.length_eq_zero.1 h0)
  rcases E_loop_total args (callingLocations h callers 6 3).1
      { Code := 0, Op := "", Kind := Kind.Other, Err := .nil,
        stack := (callingLocations h callers 6 3).2 }
      (WellFormed_of_errors_eq hce hwf) with ⟨h1, v, t, hl, ht, hv⟩ | hr
  · refine Or.inl ⟨h1, v, t, ?_, by rw [ht, hce], hv⟩
    unfold E
    simp only [hlen, if_false, hl]
  · exact Or.inr hr

theorem lastWrapped_eq_none_of_forall (args : List Arg)
    (hno : ∀ x ∈ args, x.isWrapped = false) : lastWrapped args = none := by
  cases hlw : lastWrapped args with
  | none => rfl
  | some w =>
    have hm := lastWrapped_mem args w hlw
    rw [hno w hm.1] at hm
    exact absurd hm.2 (by simp)

/-- Whatever a call with allocated pointers returns, the objects that existed before
the call are as they were. -/
theorem E_frame (h : Heap) (callers : List Frame) (args : List Arg) (h1 : Heap)
    (v : ErrorValue) (hwf : WellFormed h args) (hret : E h callers args = .ret h1 v) :
    ∀ i, i < h.errors.length → h1.errors[i]? = h.errors[i]? := by
  intro i hi
  have hne : args ≠ [] := by
    intro h0; rw [h0, E_no_args] at hret; cases hret
  rcases E_cases h callers args hne hwf with ⟨h2, v2, t, he, ht, _⟩ | hrec
  · rw [he] at hret
    cases hret
    rw [ht]; exact List.getElem?_append_left hi
  · cases hlw : lastWrapped args with
    | none =>
      obtain ⟨h2, he, hh, _⟩ := E_leaf h callers args hne hwf hrec (by simp [hlw])
      rw [he] at hret
      cases hret
      rw [hh, List.append_assoc]; exact List.getElem?_append_left hi
    | some w =>
      by_cases hptr : ∃ p, w = .errorPtr (some p)
      · obtain ⟨p, rfl⟩ := hptr
        have hp : p < h.errors.length :=
          WellFormed_lookup hwf (lastWrapped_mem args _ hlw).1
        obtain ⟨h2, c, he, hc1, hc2, _, hh, _⟩ :=
          E_structured h callers args p h.errors[p] hwf hrec hlw
            (List.getElem?_eq_getElem hp)
        rw [he] at hret
        cases hret
        have hic : i < c := Nat.lt_of_lt_of_le hi hc1
        have hil : i < ((h.errors ++ copies h args).set c
            (E.merge (built h callers args (.ptr c)) h.errors[p]).2).length := by
          rw [List.length_set, ← hc2]; exact Nat.lt_succ_of_lt hic
        rw [hh, List.getElem?_append_left hil, List.getElem?_set_ne (Nat.ne_of_gt hic)]
        exact List.getElem?_append_left hi
      · obtain ⟨h2, he, hh, _⟩ := E_leaf h callers args hne hwf hrec (by
          intro p hp2
          rw [hlw] at hp2
          exact hptr ⟨p, Option.some.inj hp2⟩)
        rw [he] at hret
        cases hret
        rw [hh, List.append_assoc]; exact List.getElem?_append_left hi

/-- The two objects a call that wraps a structured error leaves: the merged outer
error at the returned address `c + 1` and the merged copy at `c`, a new address. -/
theorem E_structured_objs (h : Heap) (callers : List Frame) (args : List Arg) (p : Addr)
    (inner : Error) (hwf : WellFormed h args) (hrec : Recognised args)
    (hw : lastWrapped args = some (.errorPtr (some p)))
    (hp : h.errors[p]? = some inner) :
    ∃ h1 c, E h callers args = .ret h1 (.ptr (c + 1)) ∧ h.errors.length ≤ c ∧
      h1.errors[c + 1]? = some (E.merge (built h callers args (.ptr c)) inner).1 ∧
      h1.errors[c]? = some (E.merge (built h callers args (.ptr c)) inner).2 := by
  obtain ⟨h1, c, he, hc1, hc2, _, hh, _⟩ := E_structured h callers args p inner hwf hrec hw hp
  have hlen : ((h.errors ++ copies h args).set c
      (E.merge (built h callers args (.ptr c)) inner).2).length = c + 1 := by
    rw [List.length_set, ← hc2]
  refine ⟨h1, c, he, hc1, ?_, ?_⟩
  · rw [hh, ← hlen]; exact List.getElem?_concat_length _ _
  · have hcl : c < ((h.errors ++ copies h args).set c
        (E.merge (built h callers args (.ptr c)) inner).2).length := by
      rw [hlen]; exact Nat.lt_succ_self c
    rw [hh, List.getElem?_append_left hcl]
    exact List.getElem?_set_self (by rw [← hc2]; exact Nat.lt_succ_self c)

/-- A call that returns a `*Error` had only recognised fragments, at least one. -/
theorem E_ret_ptr_recognised (h : Heap) (callers : List Frame) (args : List Arg)
    (h1 : Heap) (a : Addr) (hwf : WellFormed h args)
    (hret : E h callers args = .ret h1 (.ptr a)) : args ≠ [] ∧ Recognised args := by
  have hne : args ≠ [] := by
    intro h0; rw [h0, E_no_args] at hret; cases hret
  refine ⟨hne, ?_⟩
  rcases E_cases h callers args hne hwf with ⟨h2, v2, t, he, _, hv⟩ | hrec
  · rw [he] at hret
    cases hret
    exact absurd rfl (hv a)
  · exact hrec

theorem exists_first_unknown : ∀ args : List Arg, (∃ a ∈ args, a.isUnknown = true) →
    ∃ pre typ val post, args = pre ++ Arg.unknown typ val :: post ∧
      ∀ x ∈ pre, x.isUnknown = false := by
  intro args
  induction args with
  | nil => rintro ⟨a, ha, _⟩; simp at ha
  | cons a rest ih =>
    rintro ⟨b, hb, hbu⟩
    by_cases hau : a.isUnknown = true
    · cases a with
      | unknown t v => exact ⟨[], t, v, rest, rfl, fun x hx => by simp at hx⟩
      | errorPtr q => cases q <;> simp [Arg.isUnknown] at hau
      | _ => simp [Arg.isUnknown] at hau
    · have hrest : ∃ a ∈ rest, a.isUnknown = true := by
        rcases List.mem_cons.1 hb with rfl | hb1
        · exact absurd hbu hau
        · exact ⟨b, hb1, hbu⟩
      obtain ⟨pre, t, v, post, hargs, hpre⟩ := ih hrest
      refine ⟨a :: pre, t, v, post, by rw [hargs]; rfl, ?_⟩
      intro x hx
      rcases List.mem_cons.1 hx with rfl | hx1
      · simpa using hau
      · exact hpre x hx1

/-! ## Nil fragments, the empty call, unknown fragments -/

/-- C1 as stated fails: it is not so that every non-empty fragment list with a nil
fragment makes `E` return nil.  `E(42, nil)` meets the fragment of unrecognised type
first and returns the leaf built by `Errorf`. -/
theorem E_nil_after_unknown :
    ¬ ∀ (h : Heap) (callers : List Frame) (args : List Arg), WellFormed h args →
      args ≠ [] → (∃ a ∈ args, a.isNil = true) → ∃ h1, E h callers args = .ret h1 .nil := by
  intro hall
  obtain ⟨h1, hh⟩ := hall ⟨[], []⟩ [] [.unknown "int" "42", .nil] (by decide) (by simp)
    ⟨.nil, by simp, rfl⟩
  simp [E, E.loop, callingLocations, Errorf] at hh

/-- C1, amended: for every fragment list with a nil fragment (the nil interface or a
nil `*Error`) that no fragment of unrecognised type precedes, whatever the other
fragments are and whatever follows the nil fragment, `E` returns nil. -/
theorem E_nil_short_circuit (h : Heap) (callers : List Frame) (pre : List Arg) (a : Arg)
    (post : List Arg) (hwf : WellFormed h pre) (hpre : ∀ x ∈ pre, x.isUnknown = false)
    (ha : a.isNil = true) :
    ∃ h1, E h callers (pre ++ a :: post) = .ret h1 .nil := by
  have hce := callingLocations_errors h callers 6 3
  obtain ⟨h1, t, hl, _⟩ := E_loop_nil a post ha pre (callingLocations h callers 6 3).1
    { Code := 0, Op := "", Kind := Kind.Other, Err := .nil,
      stack := (callingLocations h callers 6 3).2 }
    (WellFormed_of_errors_eq hce hwf) hpre
  refine ⟨h1, ?_⟩
  unfold E
  have hlen : ¬ (pre ++ a :: post).length = 0 := by simp
  simp only [hlen, if_false, hl]

theorem E_nil_short_circuit_witness :
    WellFormed ⟨[], []⟩ [.op "x", .kind Kind.IO] ∧
    (∀ x ∈ [Arg.op "x", Arg.kind Kind.IO], x.isUnknown = false) ∧
    (Arg.errorPtr none).isNil = true ∧
    ∃ h1, E ⟨[], []⟩ [] ([.op "x", .kind Kind.IO] ++ Arg.errorPtr none :: [.str "late"]) =
      .ret h1 .nil :=
  ⟨by decide, by decide, rfl,
    E_nil_short_circuit ⟨[], []⟩ [] [.op "x", .kind Kind.IO] (.errorPtr none) [.str "late"]
      (by decide) (by decide) rfl⟩

/-- C2: `E` panics if and only if it is called with no fragment; every non-empty
fragment list (its pointers allocated) makes it return a value, nil or an error. -/
theorem E_panics_iff_no_args (h : Heap) (callers : List Frame) (args : List Arg)
    (hwf : WellFormed h args) :
    ((∃ msg, E h callers args = .panic msg) ↔ args = []) ∧
      (args ≠ [] → ∃ h1 v, E h callers args = .ret h1 v) := by
  have hret : args ≠ [] → ∃ h1 v, E h callers args = .ret h1 v := by
    intro hne
    rcases E_cases h callers args hne hwf with ⟨h1, v, t, he, _, _⟩ | hrec
    · exact ⟨h1, v, he⟩
    · cases hlw : lastWrapped args with
      | none =>
        obtain ⟨h1, he, _⟩ := E_leaf h callers args hne hwf hrec (by simp [hlw])
        exact ⟨h1, _, he⟩
      | some w =>
        by_cases hptr : ∃ p, w = .errorPtr (some p)
        · obtain ⟨p, rfl⟩ := hptr
          have hp : p < h.errors.length :=
            WellFormed_lookup hwf (lastWrapped_mem args _ hlw).1
          obtain ⟨h1, c, he, _⟩ :=
            E_structured h callers args p h.errors[p] hwf hrec hlw
              (List.getElem?_eq_getElem hp)
          exact ⟨h1, _, he⟩
        · obtain ⟨h1, he, _⟩ := E_leaf h callers args hne hwf hrec (by
            intro p hp2
            rw [hlw] at hp2
            exact hptr ⟨p, Option.some.inj hp2⟩)
          exact ⟨h1, _, he⟩
  refine ⟨⟨?_, ?_⟩, hret⟩
  · rintro ⟨msg, hmsg⟩
    by_contra hne
    obtain ⟨h1, v, he⟩ := hret hne
    rw [he] at hmsg
    cases hmsg
  · intro h0
    exact ⟨_, by rw [h0]; exact E_no_args h callers⟩

theorem E_panics_iff_no_args_witness :
    WellFormed ⟨[], []⟩ [.code 404, .kind Kind.NotExist, .str "user 42"] ∧
    (((∃ msg, E ⟨[], []⟩ [] [.code 404, .kind Kind.NotExist, .str "user 42"] = .panic msg) ↔
        [Arg.code 404, Arg.kind Kind.NotExist, Arg.str "user 42"] = []) ∧
      ([Arg.code 404, Arg.kind Kind.NotExist, Arg.str "user 42"] ≠ [] →
        ∃ h1 v, E ⟨[], []⟩ [] [.code 404, .kind Kind.NotExist, .str "user 42"] = .ret h1 v)) :=
  ⟨by decide,
    E_panics_iff_no_args ⟨[], []⟩ [] [.code 404, .kind Kind.NotExist, .str "user 42"]
      (by decide)⟩

/-- C3: for every fragment list with no nil fragment and at least one fragment of
unrecognised type, `E` returns a `*stringError` leaf (not nil, not a `*Error`) whose
message is "unknown type T, value v in error call" for the first such fragment. -/
theorem E_unknown_soft_failure (h : Heap) (callers : List Frame) (args : List Arg)
    (hwf : WellFormed h args) (hnil : ∀ a ∈ args, a.isNil = false)
    (hunk : ∃ a ∈ args, a.isUnknown = true) :
    ∃ pre typ val post h1, args = pre ++ Arg.unknown typ val :: post ∧
      (∀ x ∈ pre, x.isUnknown = false) ∧
      E h callers args =
        .ret h1 (.stringError ("unknown type " ++ typ ++ ", value " ++ val ++
          " in error call")) := by
  obtain ⟨pre, typ, val, post, hargs, hpre⟩ := exists_first_unknown args hunk
  have hce := callingLocations_errors h callers 6 3
  have hwfpre : WellFormed h pre := by
    intro x hx; exact hwf x (by rw [hargs]; exact List.mem_append_left _ hx)
  have hrec : Recognised pre := by
    intro x hx
    exact ⟨hnil x (by rw [hargs]; exact List.mem_append_left _ hx), hpre x hx⟩
  obtain ⟨h1, t, hl, _⟩ := E_loop_unknown typ val post pre (callingLocations h callers 6 3).1
    { Code := 0, Op := "", Kind := Kind.Other, Err := .nil,
      stack := (callingLocations h callers 6 3).2 }
    (WellFormed_of_errors_eq hce hwfpre) hrec
  refine ⟨pre, typ, val, post, h1, hargs, hpre, ?_⟩
  have hlen : ¬ (pre ++ Arg.unknown typ val :: post).length = 0 := by simp
  rw [hargs]
  unfold E
  simp only [hlen, if_false, hl, Errorf]

theorem E_unknown_soft_failure_witness :
    WellFormed ⟨[], []⟩ [.op "x", .unknown "int" "42", .unknown "bool" "true"] ∧
    (∀ a ∈ [Arg.op "x", Arg.unknown "int" "42", Arg.unknown "bool" "true"],
      a.isNil = false) ∧
    (∃ a ∈ [Arg.op "x", Arg.unknown "int" "42", Arg.unknown "bool" "true"],
      a.isUnknown = true) ∧
    ∃ pre typ val post h1,
      [Arg.op "x", Arg.unknown "int" "42", Arg.unknown "bool" "true"] =
        pre ++ Arg.unknown typ val :: post ∧
      (∀ x ∈ pre, x.isUnknown = false) ∧
      E ⟨[], []⟩ [] [.op "x", .unknown "int" "42", .unknown "bool" "true"] =
        .ret h1 (.stringError ("unknown type " ++ typ ++ ", value " ++ val ++
          " in error call")) :=
  ⟨by decide, by decide, by decide,
    E_unknown_soft_failure ⟨[], []⟩ [] [.op "x", .unknown "int" "42", .unknown "bool" "true"]
      (by decide) (by decide) (by decide)⟩

/-! ## Invariants of the result -/

/-- C4: every structured `*Error` that `E` returns has a non-nil `Err`; when no
fragment is a string, an `error` or a `*Error`, `Err` is the `*stringError` leaf with
the empty message. -/
theorem E_wrapped_never_nil (h : Heap) (callers : List Frame) (args : List Arg)
    (h1 : Heap) (a : Addr) (hwf : WellFormed h args)
    (hret : E h callers args = .ret h1 (.ptr a)) :
    ∃ e, h1.errors[a]? = some e ∧ e.Err ≠ .nil ∧
      ((∀ x ∈ args, x.isWrapped = false) → e.Err = .stringError "") := by
  obtain ⟨hne, hrec⟩ := E_ret_ptr_recognised h callers args h1 a hwf hret
  have hleaf : (∀ p, lastWrapped args ≠ some (.errorPtr (some p))) →
      ∃ e, h1.errors[a]? = some e ∧ e.Err ≠ .nil ∧
        ((∀ x ∈ args, x.isWrapped = false) → e.Err = .stringError "") := by
    intro hnp
    obtain ⟨h2, he, hh, _⟩ := E_leaf h callers args hne hwf hrec hnp
    rw [he] at hret
    cases hret
    refine ⟨built h callers args (leafValue (lastWrapped args)), ?_, ?_, ?_⟩
    · rw [hh]; exact List.getElem?_concat_length _ _
    · cases hlw : lastWrapped args with
      | none => simp [built, leafValue, Str]
      | some w =>
        have hww := (lastWrapped_mem args w hlw).2
        cases w with
        | errorPtr q =>
          cases q with
          | none => simp [Arg.isWrapped] at hww
          | some q => exact absurd hlw (hnp q)
        | str s => simp [built, leafValue, Str]
        | stringError s => simp [built, leafValue]
        | foreignError m => simp [built, leafValue]
        | _ => simp [Arg.isWrapped] at hww
    · intro hno
      rw [lastWrapped_eq_none_of_forall args hno]
      rfl
  by_cases hptr : ∃ p, lastWrapped args = some (.errorPtr (some p))
  · obtain ⟨p, hlw⟩ := hptr
    have hp : p < h.errors.length := WellFormed_lookup hwf (lastWrapped_mem args _ hlw).1
    obtain ⟨h2, c, he, _, ho, _⟩ :=
      E_structured_objs h callers args p h.errors[p] hwf hrec hlw
        (List.getElem?_eq_getElem hp)
    rw [he] at hret
    cases hret
    refine ⟨_, ho, ?_, ?_⟩
    · rw [merge_fst_Err]; simp [built]
    · intro hno
      rw [lastWrapped_eq_none_of_forall args hno] at hlw
      cases hlw
  · exact hleaf (fun p hp => hptr ⟨p, hp⟩)

theorem E_wrapped_never_nil_witness :
    WellFormed ⟨[], []⟩ [.op "db.Insert", .kind Kind.Database] ∧
    E ⟨[], []⟩ [] [.op "db.Insert", .kind Kind.Database] =
      .ret ⟨[⟨0, "db.Insert", Kind.Database, .stringError "", none⟩], []⟩ (.ptr 0) ∧
    ∃ e, (Heap.mk [⟨0, "db.Insert", Kind.Database, .stringError "", none⟩] []).errors[0]? =
        some e ∧ e.Err ≠ .nil ∧
      ((∀ x ∈ [Arg.op "db.Insert", Arg.kind Kind.Database], x.isWrapped = false) →
        e.Err = .stringError "") :=
  ⟨by decide, by decide,
    E_wrapped_never_nil ⟨[], []⟩ [] [.op "db.Insert", .kind Kind.Database] _ 0
      (by decide) (by decide)⟩

/-- C5: when the effective wrapped fragment of a call of `E` is a structured `*Error`,
the returned outer error and the `*Error` it wraps hold the same `Code` only if that
code is zero, and the same `Kind` only if that kind is `Other`. -/
theorem E_no_duplicate_after_merge (h : Heap) (callers : List Frame) (args : List Arg)
    (p : Addr) (h1 : Heap) (a : Addr) (hwf : WellFormed h args)
    (hw : lastWrapped args = some (.errorPtr (some p)))
    (hret : E h callers args = .ret h1 (.ptr a)) :
    ∃ outer c prev, h1.errors[a]? = some outer ∧ outer.Err = .ptr c ∧
      h1.errors[c]? = some prev ∧
      (outer.Code = prev.Code → outer.Code = 0) ∧
      (outer.Kind = prev.Kind → outer.Kind = Kind.Other) := by
  obtain ⟨_, hrec⟩ := E_ret_ptr_recognised h callers args h1 a hwf hret
  have hp : p < h.errors.length := WellFormed_lookup hwf (lastWrapped_mem args _ hw).1
  obtain ⟨h2, c, he, _, ho, hc⟩ :=
    E_structured_objs h callers args p h.errors[p] hwf hrec hw (List.getElem?_eq_getElem hp)
  rw [he] at hret
  cases hret
  refine ⟨_, c, _, ho, ?_, hc, merge_Code _ _, ?_⟩
  · rw [merge_fst_Err]; rfl
  · obtain ⟨hk1, hk2, hk3⟩ := merge_Kind (built h callers args (.ptr c)) h.errors[p]
    intro heq
    by_cases hother : (built h callers args (.ptr c)).Kind = Kind.Other
    · rw [(hk1 hother).1, (hk1 hother).2] at heq
      rw [(hk1 hother).1]; exact heq
    · by_cases hsame : (built h callers args (.ptr c)).Kind = (h.errors[p]).Kind
      · rw [(hk3 hsame).1, (hk3 hsame).2] at heq
        exact absurd heq hother
      · rw [(hk2 hother hsame).1, (hk2 hother hsame).2] at heq
        exact absurd heq hsame

theorem E_no_duplicate_after_merge_witness :
    WellFormed ⟨[⟨500, "q", Kind.IO, .stringError "leaf", none⟩], []⟩
      [.code 500, .kind Kind.IO, .errorPtr (some 0)] ∧
    lastWrapped [.code 500, .kind Kind.IO, .errorPtr (some 0)] =
      some (.errorPtr (some 0)) ∧
    E ⟨[⟨500, "q", Kind.IO, .stringError "leaf", none⟩], []⟩ []
        [.code 500, .kind Kind.IO, .errorPtr (some 0)] =
      .ret ⟨[⟨500, "q", Kind.IO, .stringError "leaf", none⟩,
             ⟨0, "q", Kind.Other, .stringError "leaf", none⟩,
             ⟨500, "", Kind.IO, .ptr 1, none⟩], []⟩ (.ptr 2) ∧
    ∃ outer c prev,
      (Heap.mk [⟨500, "q", Kind.IO, .stringError "leaf", none⟩,
          ⟨0, "q", Kind.Other, .stringError "leaf", none⟩,
          ⟨500, "", Kind.IO, .ptr 1, none⟩] []).errors[2]? = some outer ∧
      outer.Err = .ptr c ∧
      (Heap.mk [⟨500, "q", Kind.IO, .stringError "leaf", none⟩,
          ⟨0, "q", Kind.Other, .stringError "leaf", none⟩,
          ⟨500, "", Kind.IO, .ptr 1, none⟩] []).errors[c]? = some prev ∧
      (outer.Code = prev.Code → outer.Code = 0) ∧
      (outer.Kind = prev.Kind → outer.Kind = Kind.Other) :=
  ⟨by decide, by decide, by decide,
    E_no_duplicate_after_merge ⟨[⟨500, "q", Kind.IO, .stringError "leaf", none⟩], []⟩ []
      [.code 500, .kind Kind.IO, .errorPtr (some 0)] 0 _ 2 (by decide) (by decide)
      (by decide)⟩

/-- C6: `E` over recognised fragments whose effective wrapped value is a structured
error of kind `inner.Kind`.  With no `Kind` fragment, or `Other` as the effective one,
the outer error gets the inner kind and the wrapped copy gets `Other`; with a
non-`Other` kind different from the inner one both keep their kinds; with a kind equal
to the inner one the outer keeps it and the wrapped copy gets `Other`. -/
theorem E_kind_pull_up (h : Heap) (callers : List Frame) (args : List Arg) (p : Addr)
    (inner : Error) (hwf : WellFormed h args) (hrec : Recognised args)
    (hw : lastWrapped args = some (.errorPtr (some p)))
    (hp : h.errors[p]? = some inner) :
    ∃ h1 a outer c copy, E h callers args = .ret h1 (.ptr a) ∧
      h1.errors[a]? = some outer ∧ outer.Err = .ptr c ∧ h1.errors[c]? = some copy ∧
      (lastKind Kind.Other args = Kind.Other →
        outer.Kind = inner.Kind ∧ copy.Kind = Kind.Other) ∧
      (lastKind Kind.Other args ≠ Kind.Other → lastKind Kind.Other args ≠ inner.Kind →
        outer.Kind = lastKind Kind.Other args ∧ copy.Kind = inner.Kind) ∧
      (lastKind Kind.Other args = inner.Kind →
        outer.Kind = lastKind Kind.Other args ∧ copy.Kind = Kind.Other) := by
  obtain ⟨h1, c, he, _, ho, hc⟩ := E_structured_objs h callers args p inner hwf hrec hw hp
  refine ⟨h1, c + 1, _, c, _, he, ho, ?_, hc, ?_⟩
  · rw [merge_fst_Err]; rfl
  · exact merge_Kind (built h callers args (.ptr c)) inner

theorem E_kind_pull_up_witness :
    WellFormed ⟨[⟨0, "q", Kind.NotExist, .stringError "leaf", none⟩], []⟩
      [.op "get", .errorPtr (some 0)] ∧
    Recognised [.op "get", .errorPtr (some 0)] ∧
    lastWrapped [.op "get", .errorPtr (some 0)] = some (.errorPtr (some 0)) ∧
    (Heap.mk [⟨0, "q", Kind.NotExist, .stringError "leaf", none⟩] []).errors[0]? =
      some ⟨0, "q", Kind.NotExist, .stringError "leaf", none⟩ ∧
    ∃ h1 a outer c copy,
      E ⟨[⟨0, "q", Kind.NotExist, .stringError "leaf", none⟩], []⟩ []
        [.op "get", .errorPtr (some 0)] = .ret h1 (.ptr a) ∧
      h1.errors[a]? = some outer ∧ outer.Err = .ptr c ∧ h1.errors[c]? = some copy ∧
      (lastKind Kind.Other [.op "get", .errorPtr (some 0)] = Kind.Other →
        outer.Kind = Kind.NotExist ∧ copy.Kind = Kind.Other) ∧
      (lastKind Kind.Other [.op "get", .errorPtr (some 0)] ≠ Kind.Other →
        lastKind Kind.Other [.op "get", .errorPtr (some 0)] ≠ Kind.NotExist →
        outer.Kind = lastKind Kind.Other [.op "get", .errorPtr (some 0)] ∧
          copy.Kind = Kind.NotExist) ∧
      (lastKind Kind.Other [.op "get", .errorPtr (some 0)] = Kind.NotExist →
        outer.Kind = lastKind Kind.Other [.op "get", .errorPtr (some 0)] ∧
          copy.Kind = Kind.Other) :=
  ⟨by decide, by decide, by decide, by decide,
    E_kind_pull_up ⟨[⟨0, "q", Kind.NotExist, .stringError "leaf", none⟩], []⟩ []
      [.op "get", .errorPtr (some 0)] 0 ⟨0, "q", Kind.NotExist, .stringError "leaf", none⟩
      (by decide) (by decide) (by decide) (by decide)⟩

/-- C7: a call of `E` leaves every `*Error` it was passed as it was (the same `Code`,
`Op`, `Kind`, `Err` and stack at its address); and when the fragment that sets the
wrapped error is the pointer `p`, the result's `Err` is the address of another object,
the copy, whose `Op` and `Err` are those of the pointee of `p`. -/
theorem E_copy_semantics (h : Heap) (callers : List Frame) (args : List Arg) (h1 : Heap)
    (v : ErrorValue) (hwf : WellFormed h args) (hret : E h callers args = .ret h1 v) :
    (∀ p, Arg.errorPtr (some p) ∈ args →
      ∃ orig, h.errors[p]? = some orig ∧ h1.errors[p]? = some orig) ∧
    (∀ p a, lastWrapped args = some (.errorPtr (some p)) → v = .ptr a →
      ∃ outer c copy orig, h1.errors[a]? = some outer ∧ outer.Err = .ptr c ∧ c ≠ p ∧
        h1.errors[c]? = some copy ∧ h.errors[p]? = some orig ∧
        copy.Op = orig.Op ∧ copy.Err = orig.Err) := by
  refine ⟨?_, ?_⟩
  · intro p hp
    have hlt : p < h.errors.length := WellFormed_lookup hwf hp
    refine ⟨h.errors[p], List.getElem?_eq_getElem hlt, ?_⟩
    rw [E_frame h callers args h1 v hwf hret p hlt]
    exact List.getElem?_eq_getElem hlt
  · intro p a hw hv
    subst hv
    obtain ⟨_, hrec⟩ := E_ret_ptr_recognised h callers args h1 a hwf hret
    have hlt : p < h.errors.length := WellFormed_lookup hwf (lastWrapped_mem args _ hw).1
    obtain ⟨h2, c, he, hc1, ho, hc⟩ :=
      E_structured_objs h callers args p h.errors[p] hwf hrec hw
        (List.getElem?_eq_getElem hlt)
    rw [he] at hret
    cases hret
    refine ⟨_, c, _, h.errors[p], ho, ?_, ?_, hc, List.getElem?_eq_getElem hlt,
      merge_snd_Op _ _, merge_snd_Err _ _⟩
    · rw [merge_fst_Err]; rfl
    · exact Nat.ne_of_gt (Nat.lt_of_lt_of_le hlt hc1)

theorem E_copy_semantics_witness :
    WellFormed ⟨[⟨500, "q", Kind.IO, .stringError "leaf", none⟩], []⟩
      [.code 500, .kind Kind.IO, .errorPtr (some 0)] ∧
    E ⟨[⟨500, "q", Kind.IO, .stringError "leaf", none⟩], []⟩ []
        [.code 500, .kind Kind.IO, .errorPtr (some 0)] =
      .ret ⟨[⟨500, "q", Kind.IO, .stringError "leaf", none⟩,
             ⟨0, "q", Kind.Other, .stringError "leaf", none⟩,
             ⟨500, "", Kind.IO, .ptr 1, none⟩], []⟩ (.ptr 2) ∧
    ((∀ p, Arg.errorPtr (some p) ∈ [Arg.code 500, Arg.kind Kind.IO, Arg.errorPtr (some 0)] →
      ∃ orig, (Heap.mk [⟨500, "q", Kind.IO, .stringError "leaf", none⟩] []).errors[p]? =
          some orig ∧
        (Heap.mk [⟨500, "q", Kind.IO, .stringError "leaf", none⟩,
          ⟨0, "q", Kind.Other, .stringError "leaf", none⟩,
          ⟨500, "", Kind.IO, .ptr 1, none⟩] []).errors[p]? = some orig) ∧
    (∀ p a, lastWrapped [.code 500, .kind Kind.IO, .errorPtr (some 0)] =
        some (.errorPtr (some p)) → ErrorValue.ptr 2 = .ptr a →
      ∃ outer c copy orig,
        (Heap.mk [⟨500, "q", Kind.IO, .stringError "leaf", none⟩,
          ⟨0, "q", Kind.Other, .stringError "leaf", none⟩,
          ⟨500, "", Kind.IO, .ptr 1, none⟩] []).errors[a]? = some outer ∧
        outer.Err = .ptr c ∧ c ≠ p ∧
        (Heap.mk [⟨500, "q", Kind.IO, .stringError "leaf", none⟩,
          ⟨0, "q", Kind.Other, .stringError "leaf", none⟩,
          ⟨500, "", Kind.IO, .ptr 1, none⟩] []).errors[c]? = some copy ∧
        (Heap.mk [⟨500, "q", Kind.IO, .stringError "leaf", none⟩] []).errors[p]? =
          some orig ∧
        copy.Op = orig.Op ∧ copy.Err = orig.Err)) :=
  ⟨by decide, by decide,
    E_copy_semantics ⟨[⟨500, "q", Kind.IO, .stringError "leaf", none⟩], []⟩ []
      [.code 500, .kind Kind.IO, .errorPtr (some 0)] _ _ (by decide) (by decide)⟩

/-! ## Rendering -/

theorem length_eq_zero_iff (s : String) : s.length = 0 ↔ s = "" := by
  constructor
  · intro h
    apply String.ext
    exact List.length_eq_zero.1 h
  · rintro rfl; rfl

theorem append_ne_empty (a b : String) (ha : a ≠ "") : a ++ b ≠ "" := by
  intro h
  have hl : (a ++ b).length = 0 := (length_eq_zero_iff _).2 h
  rw [String.length_append] at hl
  exact ha ((length_eq_zero_iff a).1 (Nat.eq_zero_of_add_eq_zero_right hl))

theorem prepend_empty (s : String) : prepend "" s = "" := rfl

theorem prepend_of_ne (b s : String) (hb : b ≠ "") : prepend b s = b ++ s := by
  unfold prepend
  rw [if_neg (fun h => hb ((length_eq_zero_iff b).1 h))]

theorem ite_mem_list {α : Type} (c : Prop) [Decidable c] (a b : α) (l : List α)
    (ha : a ∈ l) (hb : b ∈ l) : (if c then a else b) ∈ l := by
  split <;> assumption

theorem Kind_String_mem (k : Kind) : Kind.String k ∈ kindDescriptions := by
  unfold Kind.String
  repeat (refine ite_mem_list _ _ _ _ (by decide) ?_)
  decide

theorem Kind_String_ne_empty (k : Kind) : Kind.String k ≠ "" := by
  have hall : ∀ d ∈ kindDescriptions, d ≠ "" := by decide
  exact hall _ (Kind_String_mem k)

/-- The method body against the described text: with a non-nil wrapped error whose
message is `m`, `Error()` returns `renderedText e m`. -/
theorem Error_text_eq (h : Heap) (fuel : Nat) (e : Error) (m : String)
    (hnn : e.Err ≠ .nil) (hm : ErrorValue.Error h fuel e.Err = some m) :
    Error.Error h fuel e = some (renderedText e m) := by
  have hcode : ("code " : String) ≠ "" := by decide
  have hkd := Kind_String_ne_empty e.Kind
  unfold Error.Error Error.ErrorWith renderedText frontText
  simp only [hm, if_pos hnn, length_eq_zero_iff, Kind.Other]
  by_cases hc : e.Code = 0 <;> by_cases hk : e.Kind = 0 <;> by_cases ho : e.Op = "" <;>
    simp [hc, hk, ho, prepend_empty, prepend_of_ne, String.intercalate,
      String.intercalate.go, append_ne_empty, hcode, hkd, String.append_assoc]

/-- C8: for every `*Error` with a non-nil wrapped error whose message is `m`,
`Error()` returns the present components among "code ", the kind's description (never
for `Other`) and the op, joined by ": ", then `m` after a newline when that front part
is not empty, and "No error" when the whole is empty.  And
`E(Op("db.Insert"), Database, "connection refused").Error()` is
"database error: db.Insert\nconnection refused". -/
theorem Error_Error_format :
    (∀ (h : Heap) (fuel : Nat) (e : Error) (m : String), e.Err ≠ .nil →
      ErrorValue.Error h fuel e.Err = some m →
      Error.Error h fuel e = some (renderedText e m)) ∧
    (∀ (h : Heap) (callers : List Frame), ∃ h1 a e,
      E h callers [.op "db.Insert", .kind Kind.Database, .str "connection refused"] =
        .ret h1 (.ptr a) ∧
      h1.errors[a]? = some e ∧
      Error.Error h1 0 e = some "database error: db.Insert\nconnection refused") := by
  refine ⟨Error_text_eq, ?_⟩
  intro h callers
  have hwf : WellFormed h [.op "db.Insert", .kind Kind.Database, .str "connection refused"] := by
    intro a ha
    simp only [List.mem_cons, List.mem_singleton, List.not_mem_nil, or_false] at ha
    rcases ha with rfl | rfl | rfl <;> rfl
  obtain ⟨h1, he, hh, _⟩ := E_leaf h callers
    [.op "db.Insert", .kind Kind.Database, .str "connection refused"] (by simp) hwf
    (by decide) (by intro p; simp [lastWrapped, Arg.isWrapped])
  refine ⟨h1, _, built h callers
    [.op "db.Insert", .kind Kind.Database, .str "connection refused"]
    (.stringError "connection refused"), he, ?_, ?_⟩
  · rw [hh]; exact List.getElem?_concat_length _ _
  · rw [Error_text_eq h1 0 (built h callers
      [.op "db.Insert", .kind Kind.Database, .str "connection refused"]
      (.stringError "connection refused")) "connection refused" (by simp [built]) rfl]
    rfl

theorem Error_Error_format_witness :
    (⟨404, "get", Kind.NotExist, .stringError "user 42", none⟩ : Error).Err ≠ .nil ∧
    ErrorValue.Error ⟨[], []⟩ 0
      (⟨404, "get", Kind.NotExist, .stringError "user 42", none⟩ : Error).Err =
        some "user 42" ∧
    Error.Error ⟨[], []⟩ 0 ⟨404, "get", Kind.NotExist, .stringError "user 42", none⟩ =
      some (renderedText ⟨404, "get", Kind.NotExist, .stringError "user 42", none⟩ "user 42") ∧
    renderedText ⟨404, "get", Kind.NotExist, .stringError "user 42", none⟩ "user 42" =
      "code : item does not exist: get\nuser 42" :=
  ⟨by decide, by decide,
    Error_Error_format.1 ⟨[], []⟩ 0 ⟨404, "get", Kind.NotExist, .stringError "user 42", none⟩
      "user 42" (by decide) (by decide),
    by decide⟩

/-! ## Kind descriptions -/

/-- C10 at its failing input: `Kind.String` has no case for `UnsupportedSyntax`, so
the fifteenth enumerated kind gets "unknown", the string of every value outside the
enumeration.  The other fourteen kinds have pairwise distinct descriptions, none of
them "unknown". -/
theorem Kind_String_UnsupportedSyntax :
    Kind.String Kind.UnsupportedSyntax = "unknown" ∧
    (∀ k : Nat, 15 ≤ k → Kind.String k = "unknown") ∧
    ((Kind.enumerated.take 14).map Kind.String).Nodup ∧
    "unknown" ∉ (Kind.enumerated.take 14).map Kind.String := by
  refine ⟨by decide, ?_, by decide, by decide⟩
  intro k hk
  simp only [Kind.String, Kind.Exist, Kind.NotExist, Kind.Invalid, Kind.Permission, Kind.IO,
    Kind.Timeout, Kind.Database, Kind.Encoding, Kind.Decoding, Kind.HTTP, Kind.Other,
    Kind.DuplicateKey, Kind.Canceled, Kind.Unimplemented]
  rw [if_neg (show ¬ k = 4 by omega), if_neg (show ¬ k = 5 by omega),
    if_neg (show ¬ k = 1 by omega), if_neg (show ¬ k = 2 by omega),
    if_neg (show ¬ k = 3 by omega), if_neg (show ¬ k = 6 by omega),
    if_neg (show ¬ k = 7 by omega), if_neg (show ¬ k = 8 by omega),
    if_neg (show ¬ k = 9 by omega), if_neg (show ¬ k = 10 by omega),
    if_neg (show ¬ k = 0 by omega), if_neg (show ¬ k = 11 by omega),
    if_neg (show ¬ k = 12 by omega), if_neg (show ¬ k = 13 by omega)]

/-! ## Counting occurrences in the rendered text -/

theorem prefix_append_cons_iff {sub A B : List Char} {c : Char} (hc : c ∉ sub) :
    sub <+: A ++ c :: B ↔ sub <+: A := by
  constructor
  · intro hp
    rcases List.prefix_or_prefix_of_prefix hp (List.prefix_append A (c :: B)) with h1 | h1
    · exact h1
    · obtain ⟨t, rfl⟩ := h1
      have ht : t <+: c :: B := (List.prefix_append_right_inj A).1 hp
      cases t with
      | nil => simp
      | cons x t =>
        have hx : x = c := by
          obtain ⟨r, hr⟩ := ht
          simp only [List.cons_append, List.cons.injEq] at hr
          exact hr.1
        exact absurd (by simp [hx]) hc
  · intro hp
    exact hp.trans (List.prefix_append A (c :: B))

theorem occurrencesIn_cons_of_head_ne {sub : List Char} (c : Char) (B : List Char)
    (hne : sub ≠ []) (hh : sub.head? ≠ some c) :
    occurrencesIn sub (c :: B) = occurrencesIn sub B := by
  have hnp : ¬ sub <+: c :: B := by
    intro hp
    cases sub with
    | nil => exact hne rfl
    | cons x t =>
      obtain ⟨r, hr⟩ := hp
      simp only [List.cons_append, List.cons.injEq] at hr
      exact hh (by simp [hr.1])
  simp [occurrencesIn, hnp]

theorem occurrencesIn_append_cons {sub : List Char} (c : Char) (hne : sub ≠ [])
    (hc : c ∉ sub) : ∀ A B : List Char,
    occurrencesIn sub (A ++ c :: B) = occurrencesIn sub A + occurrencesIn sub (c :: B) := by
  intro A
  induction A with
  | nil => intro B; simp [occurrencesIn, hne]
  | cons x A ih =>
    intro B
    have hiff : sub <+: x :: A ++ c :: B ↔ sub <+: x :: A :=
      prefix_append_cons_iff (A := x :: A) hc
    simp only [List.cons_append] at hiff
    show occurrencesIn sub (x :: (A ++ c :: B)) =
      occurrencesIn sub (x :: A) + occurrencesIn sub (c :: B)
    have e1 : occurrencesIn sub (x :: (A ++ c :: B)) =
        (if sub <+: x :: (A ++ c :: B) then 1 else 0) + occurrencesIn sub (A ++ c :: B) := rfl
    have e2 : occurrencesIn sub (x :: A) =
        (if sub <+: x :: A then 1 else 0) + occurrencesIn sub A := rfl
    rw [e1, e2, ih B]
    by_cases hp : sub <+: x :: A
    · rw [if_pos (hiff.2 hp), if_pos hp, Nat.add_assoc]
    · have hp2 : ¬ sub <+: x :: (A ++ c :: B) := fun h => hp (hiff.1 h)
      rw [if_neg hp2, if_neg hp, Nat.add_assoc]

theorem occurrences_append_colon {sub : String} (hs : Separable sub) (a b : String) :
    occurrences sub (a ++ ": " ++ b) = occurrences sub a + occurrences sub b := by
  obtain ⟨hne, hcol, _, hsp⟩ := hs
  have hd : (a ++ ": " ++ b).data = a.data ++ ':' :: (' ' :: b.data) := by
    simp [String.data_append]
  have hhead : sub.data.head? ≠ some ':' := by
    intro h
    cases hsd : sub.data with
    | nil => exact hne hsd
    | cons x t =>
      rw [hsd] at h hcol
      simp only [List.head?_cons, Option.some.injEq] at h
      exact hcol (by simp [h])
  unfold occurrences
  rw [hd, occurrencesIn_append_cons ':' hne hcol, occurrencesIn_cons_of_head_ne ':' _ hne hhead,
    occurrencesIn_cons_of_head_ne ' ' _ hne hsp]

theorem occurrences_append_newline {sub : String} (hs : Separable sub) (a b : String) :
    occurrences sub (a ++ "\n" ++ b) = occurrences sub a + occurrences sub b := by
  obtain ⟨hne, _, hnl, _⟩ := hs
  have hd : (a ++ "\n" ++ b).data = a.data ++ '\n' :: b.data := by
    simp [String.data_append]
  have hhead : sub.data.head? ≠ some '\n' := by
    intro h
    cases hsd : sub.data with
    | nil => exact hne hsd
    | cons x t =>
      rw [hsd] at h hnl
      simp only [List.head?_cons, Option.some.injEq] at h
      exact hnl (by simp [h])
  unfold occurrences
  rw [hd, occurrencesIn_append_cons '\n' hne hnl, occurrencesIn_cons_of_head_ne '\n' _ hne hhead]

theorem occurrences_empty {sub : String} (hs : Separable sub) : occurrences sub "" = 0 := by
  unfold occurrences
  show occurrencesIn sub.data [] = 0
  simp [occurrencesIn, hs.1]

theorem frontText_eq_empty_iff (e : Error) :
    frontText e = "" ↔ e.Code = 0 ∧ e.Kind = Kind.Other ∧ e.Op = "" := by
  have hcode : ("code " : String) ≠ "" := by decide
  have hkd := Kind_String_ne_empty e.Kind
  unfold frontText
  by_cases hc : e.Code = 0 <;> by_cases hk : e.Kind = Kind.Other <;>
    by_cases ho : e.Op = "" <;>
    simp [hc, hk, ho, String.intercalate, String.intercalate.go, append_ne_empty, hcode, hkd,
      String.append_assoc]

theorem occurrences_intercalate_go {sub : String} (hs : Separable sub) :
    ∀ (l : List String) (acc : String),
    occurrences sub (String.intercalate.go acc ": " l) =
      occurrences sub acc + (l.map (occurrences sub)).sum := by
  intro l
  induction l with
  | nil => intro acc; simp [String.intercalate.go]
  | cons a l ih =>
    intro acc
    rw [String.intercalate.go, ih, occurrences_append_colon hs, List.map_cons, List.sum_cons,
      Nat.add_assoc]

theorem occurrences_intercalate {sub : String} (hs : Separable sub) (l : List String) :
    occurrences sub (": ".intercalate l) = (l.map (occurrences sub)).sum := by
  cases l with
  | nil => simpa [String.intercalate] using occurrences_empty hs
  | cons a l =>
    rw [String.intercalate, occurrences_intercalate_go hs, List.map_cons, List.sum_cons]

theorem occurrences_frontText {sub : String} (hs : Separable sub) (e : Error) :
    occurrences sub (frontText e) =
      (if e.Code ≠ 0 then occurrences sub "code " else 0) +
      (if e.Kind ≠ Kind.Other then occurrences sub (Kind.String e.Kind) else 0) +
      (if e.Op ≠ "" then occurrences sub e.Op else 0) := by
  unfold frontText
  rw [occurrences_intercalate hs]
  by_cases hc : e.Code = 0 <;> by_cases hk : e.Kind = Kind.Other <;>
    by_cases ho : e.Op = "" <;> simp [hc, hk, ho, Nat.add_assoc]

/-- Occurrences of a separable string in the described text: those in its components
and those in the wrapped message, or in "No error" when everything is empty. -/
theorem occurrences_renderedText {sub : String} (hs : Separable sub) (e : Error)
    (m : String) :
    occurrences sub (renderedText e m) =
      (if e.Code ≠ 0 then occurrences sub "code " else 0) +
      (if e.Kind ≠ Kind.Other then occurrences sub (Kind.String e.Kind) else 0) +
      (if e.Op ≠ "" then occurrences sub e.Op else 0) +
      (if e.Code = 0 ∧ e.Kind = Kind.Other ∧ e.Op = "" ∧ m = "" then
        occurrences sub "No error" else occurrences sub m) := by
  rw [← occurrences_frontText hs e]
  unfold renderedText
  by_cases hf : frontText e = ""
  · have hall := (frontText_eq_empty_iff e).1 hf
    simp only [hf, if_true, occurrences_empty hs, Nat.zero_add]
    by_cases hm : m = ""
    · rw [if_pos hm, if_pos ⟨hall.1, hall.2.1, hall.2.2, hm⟩]
    · rw [if_neg hm, if_neg (fun hh => hm hh.2.2.2)]
  · have hne : frontText e ++ "\n" ++ m ≠ "" :=
      append_ne_empty _ _ (append_ne_empty _ _ hf)
    have hnot : ¬ (e.Code = 0 ∧ e.Kind = Kind.Other ∧ e.Op = "" ∧ m = "") :=
      fun hh => hf ((frontText_eq_empty_iff e).2 ⟨hh.1, hh.2.1, hh.2.2.1⟩)
    simp only [hf, if_false, hne, hnot]
    exact occurrences_append_newline hs _ _

set_option maxRecDepth 100000 in
theorem kindDescriptions_facts : ∀ d ∈ kindDescriptions,
    Separable d ∧ occurrences d "code " = 0 ∧ occurrences d "No error" = 0 ∧
      occurrences d d = 1 ∧ occurrences "code " d = 0 := by
  decide

theorem code_marker_facts :
    Separable "code " ∧ occurrences "code " "code " = 1 ∧
      occurrences "code " "No error" = 0 := by
  decide

theorem leafValue_message (h : Heap) (fuel : Nat) (args : List Arg)
    (hleaf : ∀ p, lastWrapped args ≠ some (.errorPtr (some p))) :
    leafValue (lastWrapped args) ≠ .nil ∧
      ErrorValue.Error h fuel (leafValue (lastWrapped args)) =
        some (leafMessage (leafValue (lastWrapped args))) := by
  cases hlw : lastWrapped args with
  | none => cases fuel <;> simp [leafValue, Str, leafMessage, ErrorValue.Error]
  | some w =>
    have hww := (lastWrapped_mem args w hlw).2
    cases w with
    | errorPtr q =>
      cases q with
      | none => simp [Arg.isWrapped] at hww
      | some q => exact absurd hlw (hleaf q)
    | str s => cases fuel <;> simp [leafValue, Str, leafMessage, ErrorValue.Error]
    | stringError s => cases fuel <;> simp [leafValue, leafMessage, ErrorValue.Error]
    | foreignError m => cases fuel <;> simp [leafValue, leafMessage, ErrorValue.Error]
    | _ => simp [Arg.isWrapped] at hww

/-- `E` over a leaf, then `E` wrapping the result: the outer error renders as the
described text of the merged outer error around that of the merged copy. -/
theorem E_wrap_rendered (h : Heap) (callers callers2 : List Frame)
    (innerArgs outerArgs : List Arg) (h1 : Heap) (a : Addr) (fuel : Nat)
    (hwf1 : WellFormed h innerArgs) (hrec1 : Recognised innerArgs)
    (hleaf : ∀ p, lastWrapped innerArgs ≠ some (.errorPtr (some p)))
    (hret : E h callers innerArgs = .ret h1 (.ptr a))
    (hwf2 : WellFormed h1 outerArgs) (hrec2 : Recognised outerArgs)
    (hw2 : lastWrapped outerArgs = some (.errorPtr (some a))) :
    ∃ h2 c, E h1 callers2 outerArgs = .ret h2 (.ptr (c + 1)) ∧
      h2.errors[c + 1]? = some (E.merge (built h1 callers2 outerArgs (.ptr c))
        (built h callers innerArgs (leafValue (lastWrapped innerArgs)))).1 ∧
      Error.Error h2 (fuel + 1) (E.merge (built h1 callers2 outerArgs (.ptr c))
        (built h callers innerArgs (leafValue (lastWrapped innerArgs)))).1 =
        some (renderedText (E.merge (built h1 callers2 outerArgs (.ptr c))
          (built h callers innerArgs (leafValue (lastWrapped innerArgs)))).1
          (renderedText (E.merge (built h1 callers2 outerArgs (.ptr c))
            (built h callers innerArgs (leafValue (lastWrapped innerArgs)))).2
            (leafMessage (leafValue (lastWrapped innerArgs))))) := by
  have hne : innerArgs ≠ [] := by
    intro h0; rw [h0, E_no_args] at hret; cases hret
  obtain ⟨h1', he, hh, _⟩ := E_leaf h callers innerArgs hne hwf1 hrec1 hleaf
  rw [he] at hret
  cases hret
  have hin : h1.errors[(h.errors ++ copies h innerArgs).length]? =
      some (built h callers innerArgs (leafValue (lastWrapped innerArgs))) := by
    rw [hh]; exact List.getElem?_concat_length _ _
  obtain ⟨h2, c, he2, _, ho, hc⟩ :=
    E_structured_objs h1 callers2 outerArgs _ _ hwf2 hrec2 hw2 hin
  refine ⟨h2, c, he2, ho, ?_⟩
  obtain ⟨hnn, hmsg⟩ := leafValue_message h2 fuel innerArgs hleaf
  have hinner : Error.Error h2 fuel (E.merge (built h1 callers2 outerArgs (.ptr c))
      (built h callers innerArgs (leafValue (lastWrapped innerArgs)))).2 =
      some (renderedText (E.merge (built h1 callers2 outerArgs (.ptr c))
        (built h callers innerArgs (leafValue (lastWrapped innerArgs)))).2
        (leafMessage (leafValue (lastWrapped innerArgs)))) := by
    apply Error_text_eq
    · rw [merge_snd_Err]; exact hnn
    · rw [merge_snd_Err]; exact hmsg
  apply Error_text_eq
  · rw [merge_fst_Err]; simp [built]
  · rw [merge_fst_Err]
    show ErrorValue.Error h2 (fuel + 1) (.ptr c) = _
    rw [ErrorValue.Error, hc]
    exact hinner

/-- Outer and inner call with the same non-`Other` kind `k`: the rendered message
holds the description of `k` at exactly one position. -/
theorem rendered_kind_once (h : Heap) (callers callers2 : List Frame)
    (innerArgs outerArgs : List Arg) (k : Kind) (h1 : Heap) (a : Addr) (fuel : Nat)
    (hk : k ≠ Kind.Other)
    (hwf1 : WellFormed h innerArgs) (hrec1 : Recognised innerArgs)
    (hleaf : ∀ p, lastWrapped innerArgs ≠ some (.errorPtr (some p)))
    (hk1 : lastKind Kind.Other innerArgs = k)
    (hret : E h callers innerArgs = .ret h1 (.ptr a))
    (hwf2 : WellFormed h1 outerArgs) (hrec2 : Recognised outerArgs)
    (hw2 : lastWrapped outerArgs = some (.errorPtr (some a)))
    (hk2 : lastKind Kind.Other outerArgs = k)
    (hop1 : occurrences (Kind.String k) (lastOp "" innerArgs) = 0)
    (hop2 : occurrences (Kind.String k) (lastOp "" outerArgs) = 0)
    (hmsg : occurrences (Kind.String k) (leafMessage (leafValue (lastWrapped innerArgs))) = 0) :
    ∃ h2 b o msg, E h1 callers2 outerArgs = .ret h2 (.ptr b) ∧ h2.errors[b]? = some o ∧
      Error.Error h2 (fuel + 1) o = some msg ∧ occurrences (Kind.String k) msg = 1 := by
  obtain ⟨h2, c, he, ho, hr⟩ := E_wrap_rendered h callers callers2 innerArgs outerArgs h1 a
    fuel hwf1 hrec1 hleaf hret hwf2 hrec2 hw2
  refine ⟨h2, c + 1, _, _, he, ho, hr, ?_⟩
  obtain ⟨hs, hcode, hnoerr, hself, _⟩ := kindDescriptions_facts _ (Kind_String_mem k)
  have hkinds := (merge_Kind (built h1 callers2 outerArgs (.ptr c))
    (built h callers innerArgs (leafValue (lastWrapped innerArgs)))).2.2
    (by simp [built, hk1, hk2])
  have hko : (E.merge (built h1 callers2 outerArgs (.ptr c))
      (built h callers innerArgs (leafValue (lastWrapped innerArgs)))).1.Kind = k := by
    rw [hkinds.1]; simp [built, hk2]
  rw [occurrences_renderedText hs, occurrences_renderedText hs, hko, hkinds.2, merge_fst_Op,
    merge_snd_Op]
  simp [built, hk, hcode, hnoerr, hself, hop1, hop2, hmsg]

/-- Outer and inner call with the same non-zero code: the rendered message holds the
marker "code " at exactly one position. -/
theorem rendered_code_once (h : Heap) (callers callers2 : List Frame)
    (innerArgs outerArgs : List Arg) (code : Code) (h1 : Heap) (a : Addr) (fuel : Nat)
    (hcode : code ≠ 0)
    (hwf1 : WellFormed h innerArgs) (hrec1 : Recognised innerArgs)
    (hleaf : ∀ p, lastWrapped innerArgs ≠ some (.errorPtr (some p)))
    (hc1 : lastCode 0 innerArgs = code)
    (hret : E h callers innerArgs = .ret h1 (.ptr a))
    (hwf2 : WellFormed h1 outerArgs) (hrec2 : Recognised outerArgs)
    (hw2 : lastWrapped outerArgs = some (.errorPtr (some a)))
    (hc2 : lastCode 0 outerArgs = code)
    (hop1 : occurrences "code " (lastOp "" innerArgs) = 0)
    (hop2 : occurrences "code " (lastOp "" outerArgs) = 0)
    (hmsg : occurrences "code " (leafMessage (leafValue (lastWrapped innerArgs))) = 0) :
    ∃ h2 b o msg, E h1 callers2 outerArgs = .ret h2 (.ptr b) ∧ h2.errors[b]? = some o ∧
      Error.Error h2 (fuel + 1) o = some msg ∧ occurrences "code " msg = 1 := by
  obtain ⟨h2, c, he, ho, hr⟩ := E_wrap_rendered h callers callers2 innerArgs outerArgs h1 a
    fuel hwf1 hrec1 hleaf hret hwf2 hrec2 hw2
  refine ⟨h2, c + 1, _, _, he, ho, hr, ?_⟩
  obtain ⟨hs, hself, hnoerr⟩ := code_marker_facts
  have hdesc : ∀ x : Kind, occurrences "code " (Kind.String x) = 0 :=
    fun x => (kindDescriptions_facts _ (Kind_String_mem x)).2.2.2.2
  have hco : (E.merge (built h1 callers2 outerArgs (.ptr c))
      (built h callers innerArgs (leafValue (lastWrapped innerArgs)))).1.Code = code := by
    rw [merge_fst_Code]; simp [built, hc2]
  have hci : (E.merge (built h1 callers2 outerArgs (.ptr c))
      (built h callers innerArgs (leafValue (lastWrapped innerArgs)))).2.Code = 0 := by
    rw [merge_snd_Code, if_pos (by simp [built, hc1, hc2])]
  rw [occurrences_renderedText hs, occurrences_renderedText hs, hco, hci, merge_fst_Op,
    merge_snd_Op]
  simp [built, hcode, hdesc, hnoerr, hself, hop1, hop2, hmsg]

/-- C9: for every non-`Other` kind `k`, `E` with kind `k` wrapping the result of `E`
with kind `k` over a plain leaf renders a message that holds the description of `k`
at exactly one position; and for every non-zero code, `E` with that code wrapping the
result of `E` with the same code over a plain leaf renders a message that holds the
marker "code " at exactly one position.  The other fragments of both calls are
arbitrary recognised ones; the ops and the leaf message are assumed not to hold the
description, respectively the marker. -/
theorem E_rendered_dedup :
    (∀ (h : Heap) (callers callers2 : List Frame) (innerArgs outerArgs : List Arg)
      (k : Kind) (h1 : Heap) (a : Addr) (fuel : Nat),
      k ≠ Kind.Other →
      WellFormed h innerArgs → Recognised innerArgs →
      (∀ p, lastWrapped innerArgs ≠ some (.errorPtr (some p))) →
      lastKind Kind.Other innerArgs = k →
      E h callers innerArgs = .ret h1 (.ptr a) →
      WellFormed h1 outerArgs → Recognised outerArgs →
      lastWrapped outerArgs = some (.errorPtr (some a)) →
      lastKind Kind.Other outerArgs = k →
      occurrences (Kind.String k) (lastOp "" innerArgs) = 0 →
      occurrences (Kind.String k) (lastOp "" outerArgs) = 0 →
      occurrences (Kind.String k) (leafMessage (leafValue (lastWrapped innerArgs))) = 0 →
      ∃ h2 b o msg, E h1 callers2 outerArgs = .ret h2 (.ptr b) ∧ h2.errors[b]? = some o ∧
        Error.Error h2 (fuel + 1) o = some msg ∧ occurrences (Kind.String k) msg = 1) ∧
    (∀ (h : Heap) (callers callers2 : List Frame) (innerArgs outerArgs : List Arg)
      (code : Code) (h1 : Heap) (a : Addr) (fuel : Nat),
      code ≠ 0 →
      WellFormed h innerArgs → Recognised innerArgs →
      (∀ p, lastWrapped innerArgs ≠ some (.errorPtr (some p))) →
      lastCode 0 innerArgs = code →
      E h callers innerArgs = .ret h1 (.ptr a) →
      WellFormed h1 outerArgs → Recognised outerArgs →
      lastWrapped outerArgs = some (.errorPtr (some a)) →
      lastCode 0 outerArgs = code →
      occurrences "code " (lastOp "" innerArgs) = 0 →
      occurrences "code " (lastOp "" outerArgs) = 0 →
      occurrences "code " (leafMessage (leafValue (lastWrapped innerArgs))) = 0 →
      ∃ h2 b o msg, E h1 callers2 outerArgs = .ret h2 (.ptr b) ∧ h2.errors[b]? = some o ∧
        Error.Error h2 (fuel + 1) o = some msg ∧ occurrences "code " msg = 1) :=
  ⟨rendered_kind_once, rendered_code_once⟩

theorem E_rendered_dedup_witness :
    E ⟨[], []⟩ [] [.kind Kind.IO, .op "read", .str "disk failure"] =
      .ret ⟨[⟨0, "read", Kind.IO, .stringError "disk failure", none⟩], []⟩ (.ptr 0) ∧
    E ⟨[⟨0, "read", Kind.IO, .stringError "disk failure", none⟩], []⟩ []
        [.kind Kind.IO, .op "load", .errorPtr (some 0)] =
      .ret ⟨[⟨0, "read", Kind.IO, .stringError "disk failure", none⟩,
             ⟨0, "read", Kind.Other, .stringError "disk failure", none⟩,
             ⟨0, "load", Kind.IO, .ptr 1, none⟩], []⟩ (.ptr 2) ∧
    Error.Error ⟨[⟨0, "read", Kind.IO, .stringError "disk failure", none⟩,
        ⟨0, "read", Kind.Other, .stringError "disk failure", none⟩,
        ⟨0, "load", Kind.IO, .ptr 1, none⟩], []⟩ 1 ⟨0, "load", Kind.IO, .ptr 1, none⟩ =
      some "I/O error: load\nread\ndisk failure" ∧
    ∃ h2 b o msg,
      E ⟨[⟨0, "read", Kind.IO, .stringError "disk failure", none⟩], []⟩ []
        [.kind Kind.IO, .op "load", .errorPtr (some 0)] = .ret h2 (.ptr b) ∧
      h2.errors[b]? = some o ∧ Error.Error h2 (0 + 1) o = some msg ∧
      occurrences (Kind.String Kind.IO) msg = 1 :=
  ⟨by decide, by decide, by decide,
    E_rendered_dedup.1 ⟨[], []⟩ [] [] [.kind Kind.IO, .op "read", .str "disk failure"]
      [.kind Kind.IO, .op "load", .errorPtr (some 0)] Kind.IO
      ⟨[⟨0, "read", Kind.IO, .stringError "disk failure", none⟩], []⟩ 0 0
      (by decide) (by decide) (by decide) (fun p hp => by cases hp) (by decide) (by decide)
      (by decide) (by decide) (by decide) (by decide) (by decide) (by decide) (by decide)⟩

/-! ## The order of the merge rules -/

/-- The merge of `E` is rule 1, then rule 2, then rule 3. -/
theorem E_merge_eq_rules (e prev : Error) :
    E.merge e prev = E.rule3 (E.rule2 (E.rule1 (e, prev))) := by
  unfold E.merge E.rule1 E.rule2 E.rule3
  by_cases h1 : prev.Code = e.Code <;> by_cases h2 : prev.Kind = e.Kind <;>
    by_cases h3 : e.Kind = Kind.Other <;> simp [h1, h2, h3]

theorem rule3_rule2_comm (s : Error × Error) :
    E.rule2 (E.rule3 s) = E.rule3 (E.rule2 s) := by
  obtain ⟨e, prev⟩ := s
  unfold E.rule2 E.rule3
  by_cases h2 : prev.Kind = e.Kind <;> by_cases h3 : e.Kind = Kind.Other <;>
    by_cases h4 : prev.Kind = Kind.Other <;> simp_all

/-- C18 as stated fails: no outer and inner error exist for which rule 3 before rule 2
gives another (outer kind, inner kind) pair than rule 2 before rule 3. -/
theorem merge_rule_order_no_difference :
    ¬ ∃ e prev : Error,
      kindPair (E.rule2 (E.rule3 (e, prev))) ≠ kindPair (E.rule3 (E.rule2 (e, prev))) := by
  rintro ⟨e, prev, hne⟩
  exact hne (by rw [rule3_rule2_comm])

/-- C18, amended: the order of rule 2 and rule 3 does not matter.  For every outer and
inner error, rule 3 before rule 2 leaves the same two errors, hence the same (outer
kind, inner kind) pair, as the implemented order, which is the one `E` runs after
rule 1. -/
theorem merge_rule_order_irrelevant (e prev : Error) :
    E.rule2 (E.rule3 (e, prev)) = E.rule3 (E.rule2 (e, prev)) ∧
    kindPair (E.rule2 (E.rule3 (e, prev))) = kindPair (E.rule3 (E.rule2 (e, prev))) ∧
    E.merge e prev = E.rule2 (E.rule3 (E.rule1 (e, prev))) := by
  refine ⟨rule3_rule2_comm _, by rw [rule3_rule2_comm], ?_⟩
  rw [E_merge_eq_rules, rule3_rule2_comm]

/-! ## The order of the fragments -/

theorem countP_le_cons (p : Arg → Bool) (x : Arg) (l : List Arg) :
    l.countP p ≤ (x :: l).countP p := by
  rw [List.countP_cons]; exact Nat.le_add_right _ _

theorem lastCode_perm {l1 l2 : List Arg} (hp : l1.Perm l2) :
    ∀ d : Code, l1.countP Arg.isCode ≤ 1 → lastCode d l1 = lastCode d l2 := by
  induction hp with
  | nil => intro d _; rfl
  | cons x _ ih =>
    intro d hc
    have hc1 := Nat.le_trans (countP_le_cons _ _ _) hc
    cases x <;> simp only [lastCode] <;> exact ih _ hc1
  | swap x y l =>
    intro d hc
    cases x <;> cases y <;> first
      | rfl
      | (simp [List.countP_cons, Arg.isCode] at hc)
  | trans h1 _ ih1 ih2 =>
    intro d hc
    exact (ih1 d hc).trans (ih2 d (by rw [← h1.countP_eq]; exact hc))

theorem lastOp_perm {l1 l2 : List Arg} (hp : l1.Perm l2) :
    ∀ d : Op, l1.countP Arg.isOp ≤ 1 → lastOp d l1 = lastOp d l2 := by
  induction hp with
  | nil => intro d _; rfl
  | cons x _ ih =>
    intro d hc
    have hc1 := Nat.le_trans (countP_le_cons _ _ _) hc
    cases x <;> simp only [lastOp] <;> exact ih _ hc1
  | swap x y l =>
    intro d hc
    cases x <;> cases y <;> first
      | rfl
      | (simp [List.countP_cons, Arg.isOp] at hc)
  | trans h1 _ ih1 ih2 =>
    intro d hc
    exact (ih1 d hc).trans (ih2 d (by rw [← h1.countP_eq]; exact hc))

theorem lastKind_perm {l1 l2 : List Arg} (hp : l1.Perm l2) :
    ∀ d : Kind, l1.countP Arg.isKind ≤ 1 → lastKind d l1 = lastKind d l2 := by
  induction hp with
  | nil => intro d _; rfl
  | cons x _ ih =>
    intro d hc
    have hc1 := Nat.le_trans (countP_le_cons _ _ _) hc
    cases x <;> simp only [lastKind] <;> exact ih _ hc1
  | swap x y l =>
    intro d hc
    cases x <;> cases y <;> first
      | rfl
      | (simp [List.countP_cons, Arg.isKind] at hc)
  | trans h1 _ ih1 ih2 =>
    intro d hc
    exact (ih1 d hc).trans (ih2 d (by rw [← h1.countP_eq]; exact hc))

theorem lastWrapped_perm {l1 l2 : List Arg} (hp : l1.Perm l2) :
    l1.countP Arg.isWrapped ≤ 1 → lastWrapped l1 = lastWrapped l2 := by
  induction hp with
  | nil => intro _; rfl
  | cons x _ ih =>
    intro hc
    have hc1 := Nat.le_trans (countP_le_cons _ _ _) hc
    simp only [lastWrapped, ih hc1]
  | swap x y l =>
    intro hc
    simp only [lastWrapped]
    cases hl : lastWrapped l with
    | some w => rfl
    | none =>
      by_cases hx : x.isWrapped = true <;> by_cases hy : y.isWrapped = true
      · simp [List.countP_cons, hx, hy] at hc
      · simp [hx, hy]
      · simp [hx, hy]
      · simp [hx, hy]
  | trans h1 _ ih1 ih2 =>
    intro hc
    exact (ih1 hc).trans (ih2 (by rw [← h1.countP_eq]; exact hc))

theorem copies_perm (h : Heap) {l1 l2 : List Arg} (hp : l1.Perm l2) :
    l1.countP Arg.isWrapped ≤ 1 → copies h l1 = copies h l2 := by
  induction hp with
  | nil => intro _; rfl
  | cons x _ ih =>
    intro hc
    have hc1 := Nat.le_trans (countP_le_cons _ _ _) hc
    cases x with
    | errorPtr p => cases p <;> simp only [copies, ih hc1]
    | _ => simp only [copies, ih hc1]
  | swap x y l =>
    intro hc
    by_cases hx : x.isWrapped = true <;> by_cases hy : y.isWrapped = true
    · simp [List.countP_cons, hx, hy] at hc
    · cases y with
      | errorPtr q =>
        cases q with
        | none => cases x with
          | errorPtr p => cases p <;> simp [copies]
          | _ => simp [copies]
        | some q => simp [Arg.isWrapped] at hy
      | _ => cases x with
        | errorPtr p => cases p <;> simp [copies]
        | _ => simp [copies]
    · cases x with
      | errorPtr p =>
        cases p with
        | none => cases y with
          | errorPtr q => cases q <;> simp [copies]
          | _ => simp [copies]
        | some p => simp [Arg.isWrapped] at hx
      | _ => cases y with
        | errorPtr q => cases q <;> simp [copies]
        | _ => simp [copies]
    · cases x with
      | errorPtr p =>
        cases p with
        | none => cases y with
          | errorPtr q => cases q <;> simp [copies]
          | _ => simp [copies]
        | some p => simp [Arg.isWrapped] at hx
      | _ => cases y with
        | errorPtr q => cases q <;> simp [copies]
        | _ => simp [copies]
  | trans h1 _ ih1 ih2 =>
    intro hc
    exact (ih1 hc).trans (ih2 (by rw [← h1.countP_eq]; exact hc))

theorem WellFormed_perm {h : Heap} {l1 l2 : List Arg} (hp : l1.Perm l2)
    (hwf : WellFormed h l1) : WellFormed h l2 :=
  fun a ha => hwf a (hp.mem_iff.2 ha)

theorem Recognised_perm {l1 l2 : List Arg} (hp : l1.Perm l2)
    (hr : Recognised l1) : Recognised l2 :=
  fun a ha => hr a (hp.mem_iff.2 ha)

theorem Heap_ext {h1 h2 : Heap} (he : h1.errors = h2.errors)
    (hs : h1.stackObjs = h2.stackObjs) : h1 = h2 := by
  cases h1; cases h2; simp_all

theorem built_perm (h : Heap) (callers : List Frame) {l1 l2 : List Arg} (hp : l1.Perm l2)
    (hcode : l1.countP Arg.isCode ≤ 1) (hop : l1.countP Arg.isOp ≤ 1)
    (hkind : l1.countP Arg.isKind ≤ 1) (v : ErrorValue) :
    built h callers l1 v = built h callers l2 v := by
  unfold built
  rw [lastCode_perm hp 0 hcode, lastOp_perm hp "" hop, lastKind_perm hp Kind.Other hkind]

/-- Both calls return the same `*Error` in the same heap. -/
theorem E_perm_eq (h : Heap) (callers : List Frame) (args args' : List Arg)
    (hp : args.Perm args') (hne : args ≠ []) (hwf : WellFormed h args)
    (hrec : Recognised args)
    (hcode : args.countP Arg.isCode ≤ 1) (hop : args.countP Arg.isOp ≤ 1)
    (hkind : args.countP Arg.isKind ≤ 1) (hwr : args.countP Arg.isWrapped ≤ 1) :
    ∃ h1 a e, E h callers args = .ret h1 (.ptr a) ∧ E h callers args' = .ret h1 (.ptr a) ∧
      h1.errors[a]? = some e := by
  have hne' : args' ≠ [] := fun h0 => hne (by rw [h0] at hp; exact hp.eq_nil)
  have hwf' := WellFormed_perm hp hwf
  have hrec' := Recognised_perm hp hrec
  have hlw := lastWrapped_perm hp hwr
  have hcp := copies_perm h hp hwr
  by_cases hptr : ∃ p, lastWrapped args = some (.errorPtr (some p))
  · obtain ⟨p, hw⟩ := hptr
    have hlt : p < h.errors.length := WellFormed_lookup hwf (lastWrapped_mem args _ hw).1
    obtain ⟨h1, c, he, _, hc2, _, hh, hs⟩ :=
      E_structured h callers args p h.errors[p] hwf hrec hw (List.getElem?_eq_getElem hlt)
    obtain ⟨h2, c', he', _, hc2', _, hh', hs'⟩ :=
      E_structured h callers args' p h.errors[p] hwf' hrec' (hlw ▸ hw)
        (List.getElem?_eq_getElem hlt)
    have hcc : c' = c := by
      rw [← hcp, ← hc2] at hc2'
      exact Nat.succ_injective hc2'
    subst hcc
    have hheap : h2 = h1 := by
      apply Heap_ext
      · rw [hh, hh', ← hcp, ← built_perm h callers hp hcode hop hkind]
      · rw [hs, hs']
    subst hheap
    obtain ⟨_, _, _, _, ho, _⟩ :=
      E_structured_objs h callers args p h.errors[p] hwf hrec hw (List.getElem?_eq_getElem hlt)
    have hlen : c' + 1 < h2.errors.length := by
      rw [hh, List.length_append, List.length_set, ← hc2]
      exact Nat.lt_succ_self _
    exact ⟨h2, c' + 1, h2.errors[c' + 1], he, he', List.getElem?_eq_getElem hlen⟩
  · have hnp : ∀ p, lastWrapped args ≠ some (.errorPtr (some p)) := fun p hp2 => hptr ⟨p, hp2⟩
    have hnp' : ∀ p, lastWrapped args' ≠ some (.errorPtr (some p)) := by
      rw [← hlw]; exact hnp
    obtain ⟨h1, he, hh, hs⟩ := E_leaf h callers args hne hwf hrec hnp
    obtain ⟨h2, he', hh', hs'⟩ := E_leaf h callers args' hne' hwf' hrec' hnp'
    have hheap : h2 = h1 := by
      apply Heap_ext
      · rw [hh, hh', ← hcp, ← hlw, ← built_perm h callers hp hcode hop hkind]
      · rw [hs, hs']
    subst hheap
    rw [← hcp] at he'
    refine ⟨h2, _, built h callers args (leafValue (lastWrapped args)), he, he', ?_⟩
    rw [hh]; exact List.getElem?_concat_length _ _

/-- C16: for every list of recognised non-nil fragments with at most one `Code`, one
`Op`, one `Kind` and one wrapped value, every permutation makes `E` return the same
outcome: the same `*Error` in the same heap, hence the same code, op, kind, wrapped
error and `Error()` text. -/
theorem E_fragment_order (h : Heap) (callers : List Frame) (args args' : List Arg)
    (hp : args.Perm args') (hwf : WellFormed h args) (hrec : Recognised args)
    (hcode : args.countP Arg.isCode ≤ 1) (hop : args.countP Arg.isOp ≤ 1)
    (hkind : args.countP Arg.isKind ≤ 1) (hwr : args.countP Arg.isWrapped ≤ 1) :
    E h callers args = E h callers args' ∧
    (args ≠ [] → ∃ h1 a e, E h callers args = .ret h1 (.ptr a) ∧
      E h callers args' = .ret h1 (.ptr a) ∧ h1.errors[a]? = some e) := by
  by_cases hne : args = []
  · subst hne
    rw [hp.nil_eq]
    exact ⟨rfl, fun h0 => absurd rfl h0⟩
  · obtain ⟨h1, a, e, he, he', ho⟩ :=
      E_perm_eq h callers args args' hp hne hwf hrec hcode hop hkind hwr
    exact ⟨by rw [he, he'], fun _ => ⟨h1, a, e, he, he', ho⟩⟩

theorem E_fragment_order_witness :
    [Arg.code 404, Arg.kind Kind.NotExist, Arg.op "get", Arg.str "user 42"].Perm
      [Arg.str "user 42", Arg.op "get", Arg.code 404, Arg.kind Kind.NotExist] ∧
    E ⟨[], []⟩ [] [.code 404, .kind Kind.NotExist, .op "get", .str "user 42"] =
      .ret ⟨[⟨404, "get", Kind.NotExist, .stringError "user 42", none⟩], []⟩ (.ptr 0) ∧
    (E ⟨[], []⟩ [] [.code 404, .kind Kind.NotExist, .op "get", .str "user 42"] =
      E ⟨[], []⟩ [] [.str "user 42", .op "get", .code 404, .kind Kind.NotExist] ∧
    ([Arg.code 404, Arg.kind Kind.NotExist, Arg.op "get", Arg.str "user 42"] ≠ [] →
      ∃ h1 a e,
        E ⟨[], []⟩ [] [.code 404, .kind Kind.NotExist, .op "get", .str "user 42"] =
          .ret h1 (.ptr a) ∧
        E ⟨[], []⟩ [] [.str "user 42", .op "get", .code 404, .kind Kind.NotExist] =
          .ret h1 (.ptr a) ∧
        h1.errors[a]? = some e)) :=
  ⟨by decide, by decide,
    E_fragment_order ⟨[], []⟩ []
      [.code 404, .kind Kind.NotExist, .op "get", .str "user 42"]
      [.str "user 42", .op "get", .code 404, .kind Kind.NotExist]
      (by decide) (by decide) (by decide) (by decide) (by decide) (by decide) (by decide)⟩

/-! ## The classification bubbles to the top -/

theorem lt_of_getElem?_eq_some {l : List Error} {i : Nat} {e : Error}
    (h : l[i]? = some e) : i < l.length := by
  obtain ⟨hl, _⟩ := List.getElem?_eq_some_iff.1 h
  exact hl

theorem ChainOther_mono {h h1 : Heap} {v : ErrorValue} (hc : ChainOther h v)
    (hf : ∀ i, i < h.errors.length → h1.errors[i]? = h.errors[i]?) : ChainOther h1 v := by
  induction hc with
  | leaf v hv => exact ChainOther.leaf v hv
  | node a e he hk _ ih =>
    exact ChainOther.node a e (by rw [hf a (lt_of_getElem?_eq_some he)]; exact he) hk ih

theorem lastKind_of_no_kind : ∀ (args : List Arg) (d : Kind),
    (∀ x ∈ args, x.isKind = false) → lastKind d args = d := by
  intro args
  induction args with
  | nil => intro d _; rfl
  | cons a rest ih =>
    intro d hno
    have hrest : ∀ x ∈ rest, x.isKind = false := fun x hx => hno x (List.mem_cons_of_mem _ hx)
    have ha := hno a (List.mem_cons_self _ _)
    cases a with
    | kind k => simp [Arg.isKind] at ha
    | _ => simpa [lastKind] using ih d hrest

/-- The outer kind after the merge is `Other` only if the wrapped error had kind
`Other`; the merged copy then has kind `Other` too. -/
theorem merge_Kind_Other (e prev : Error) (ho : (E.merge e prev).1.Kind = Kind.Other) :
    prev.Kind = Kind.Other ∧ (E.merge e prev).2.Kind = Kind.Other := by
  obtain ⟨hk1, hk2, hk3⟩ := merge_Kind e prev
  by_cases h1 : e.Kind = Kind.Other
  · rw [(hk1 h1).1] at ho
    exact ⟨ho, (hk1 h1).2⟩
  · by_cases h2 : e.Kind = prev.Kind
    · rw [(hk3 h2).1] at ho
      exact absurd ho h1
    · rw [(hk2 h1 h2).1] at ho
      exact absurd ho h1

/-- The invariant of the heaps built by `E`: a result of kind `Other` has a wrapped
chain of kind `Other` throughout. -/
theorem BuiltBy_inv {h : Heap} {rs : List Addr} (hb : BuiltBy h rs) :
    ∀ a ∈ rs, ∃ e, h.errors[a]? = some e ∧ (e.Kind = Kind.Other → ChainOther h e.Err) := by
  induction hb with
  | start h he => intro a ha; simp at ha
  | callPtr h rs callers args h1 a hb hargs hret ih =>
    have hwf : WellFormed h args := by
      intro x hx
      cases x with
      | errorPtr p =>
        cases p with
        | none => rfl
        | some p =>
          obtain ⟨e, he, _⟩ := ih p (hargs p hx)
          simpa [Arg.allocated] using lt_of_getElem?_eq_some he
      | _ => rfl
    have hframe := E_frame h callers args h1 _ hwf hret
    intro x hx
    rcases List.mem_cons.1 hx with rfl | hx
    · obtain ⟨hne, hrec⟩ := E_ret_ptr_recognised h callers args h1 x hwf hret
      by_cases hptr : ∃ p, lastWrapped args = some (.errorPtr (some p))
      · obtain ⟨p, hw⟩ := hptr
        obtain ⟨inner, hin, hchain⟩ := ih p (hargs p (lastWrapped_mem args _ hw).1)
        obtain ⟨h2, c, he, _, ho, hc⟩ :=
          E_structured_objs h callers args p inner hwf hrec hw hin
        rw [he] at hret
        cases hret
        refine ⟨_, ho, ?_⟩
        intro hk
        obtain ⟨hik, hck⟩ := merge_Kind_Other _ _ hk
        rw [merge_fst_Err]
        refine ChainOther.node c _ hc hck ?_
        rw [merge_snd_Err]
        exact ChainOther_mono (hchain hik) hframe
      · have hnp : ∀ p, lastWrapped args ≠ some (.errorPtr (some p)) :=
          fun p hp2 => hptr ⟨p, hp2⟩
        obtain ⟨h2, he, hh, _⟩ := E_leaf h callers args hne hwf hrec hnp
        rw [he] at hret
        cases hret
        refine ⟨built h callers args (leafValue (lastWrapped args)),
          by rw [hh]; exact List.getElem?_concat_length _ _, ?_⟩
        intro _
        apply ChainOther.leaf
        intro a
        cases hlw : lastWrapped args with
        | none => simp [built, leafValue, Str]
        | some w =>
          cases w with
          | errorPtr q => cases q <;> simp [built, leafValue]
          | _ => simp [built, leafValue, Str]
    · obtain ⟨e, he, hchain⟩ := ih x hx
      refine ⟨e, by rw [hframe x (lt_of_getElem?_eq_some he)]; exact he, ?_⟩
      intro hk
      exact ChainOther_mono (hchain hk) hframe
  | callOther h rs callers args h1 v hb hargs hv hret ih =>
    have hwf : WellFormed h args := by
      intro x hx
      cases x with
      | errorPtr p =>
        cases p with
        | none => rfl
        | some p =>
          obtain ⟨e, he, _⟩ := ih p (hargs p hx)
          simpa [Arg.allocated] using lt_of_getElem?_eq_some he
      | _ => rfl
    have hframe := E_frame h callers args h1 _ hwf hret
    intro x hx
    obtain ⟨e, he, hchain⟩ := ih x hx
    refine ⟨e, by rw [hframe x (lt_of_getElem?_eq_some he)]; exact he, ?_⟩
    intro hk
    exact ChainOther_mono (hchain hk) hframe

theorem WrapsNoKind_kind {s t : Heap × Addr} (hw : WrapsNoKind s t) :
    ∀ e, s.1.errors[s.2]? = some e → ∃ e1, t.1.errors[t.2]? = some e1 ∧ e1.Kind = e.Kind := by
  obtain ⟨sh, sa⟩ := s
  obtain ⟨th, ta⟩ := t
  obtain ⟨callers, args, hwf, hrec, hlw, hno, hret⟩ := hw
  simp only at hwf hlw hret
  intro e he
  obtain ⟨h2, c, hE, _, ho, _⟩ := E_structured_objs sh callers args sa e hwf hrec hlw he
  rw [hE] at hret
  cases hret
  refine ⟨_, ho, ?_⟩
  exact ((merge_Kind (built sh callers args (.ptr c)) e).1
    (by simp [built, lastKind_of_no_kind args _ hno])).1

/-- C19: in every heap built by nested calls of `E` over plain leaves, a result whose
kind is `Other` has kind `Other` at every structured error of its wrapped chain; and
wrapping a structured error of kind `K` any number of times by calls of `E` without a
`Kind` fragment gives an outermost error of kind `K`. -/
theorem E_kind_bubbles_up :
    (∀ (h : Heap) (rs : List Addr), BuiltBy h rs → ∀ a ∈ rs,
      ∃ e, h.errors[a]? = some e ∧ (e.Kind = Kind.Other → ChainOther h e.Err)) ∧
    (∀ s t : Heap × Addr, Relation.ReflTransGen WrapsNoKind s t →
      ∀ e, s.1.errors[s.2]? = some e →
        ∃ e1, t.1.errors[t.2]? = some e1 ∧ e1.Kind = e.Kind) := by
  refine ⟨fun h rs hb => BuiltBy_inv hb, ?_⟩
  intro s t hst
  induction hst with
  | refl => intro e he; exact ⟨e, he, rfl⟩
  | tail _ hstep ih =>
    intro e he
    obtain ⟨e1, he1, hk1⟩ := ih e he
    obtain ⟨e2, he2, hk2⟩ := WrapsNoKind_kind hstep e1 he1
    exact ⟨e2, he2, hk2.trans hk1⟩

theorem E_kind_bubbles_up_witness :
    BuiltBy ⟨[⟨0, "", Kind.Other, .stringError "leaf", none⟩,
        ⟨0, "", Kind.Other, .stringError "leaf", none⟩,
        ⟨0, "x", Kind.Other, .ptr 1, none⟩], []⟩ [2, 0] ∧
    ∃ e, (Heap.mk [⟨0, "", Kind.Other, .stringError "leaf", none⟩,
        ⟨0, "", Kind.Other, .stringError "leaf", none⟩,
        ⟨0, "x", Kind.Other, .ptr 1, none⟩] []).errors[2]? = some e ∧
      (e.Kind = Kind.Other →
        ChainOther ⟨[⟨0, "", Kind.Other, .stringError "leaf", none⟩,
          ⟨0, "", Kind.Other, .stringError "leaf", none⟩,
          ⟨0, "x", Kind.Other, .ptr 1, none⟩], []⟩ e.Err) := by
  have hb : BuiltBy ⟨[⟨0, "", Kind.Other, .stringError "leaf", none⟩,
      ⟨0, "", Kind.Other, .stringError "leaf", none⟩,
      ⟨0, "x", Kind.Other, .ptr 1, none⟩], []⟩ [2, 0] :=
    BuiltBy.callPtr ⟨[⟨0, "", Kind.Other, .stringError "leaf", none⟩], []⟩ [0] []
      [.op "x", .errorPtr (some 0)] _ 2
      (BuiltBy.callPtr ⟨[], []⟩ [] [] [.str "leaf"] _ 0 (BuiltBy.start ⟨[], []⟩ rfl)
        (by intro p hp; simp at hp) (by decide))
      (by intro p hp; simp at hp; simp [hp]) (by decide)
  exact ⟨hb, E_kind_bubbles_up.1 _ _ hb 2 (by simp)⟩

/-! ## The "no rows" predicate -/

theorem ErrorValue_Error_foreign (h : Heap) (fuel : Nat) (m : String) :
    ErrorValue.Error h fuel (.foreign m) = some m := by
  cases fuel <;> rfl

/-- C12 at its failing input: the literal in `IsNoRows` is "now rows in result set",
so the database layer's "sql: no rows in result set" is not recognised; `IsNoRows`
answers whether the message contains the misspelt text. -/
theorem IsNoRows_sql_no_rows :
    (∀ (h : Heap) (fuel : Nat),
      IsNoRows h fuel (.foreign "sql: no rows in result set") = some false) ∧
    (∀ (h : Heap) (fuel : Nat) (m : String),
      IsNoRows h fuel (.foreign m) =
        some (decide ("now rows in result set".data <:+: m.data))) := by
  refine ⟨?_, ?_⟩
  · intro h fuel
    unfold IsNoRows
    rw [ErrorValue_Error_foreign]
    decide
  · intro h fuel m
    unfold IsNoRows
    rw [ErrorValue_Error_foreign]
    rfl

/-! ## Function names -/

theorem firstIndex_append_cons (c : Char) (rest : List Char) :
    ∀ pre : List Char, c ∉ pre →
      strings.firstIndex (pre ++ c :: rest) c = some pre.length := by
  intro pre
  induction pre with
  | nil => intro _; simp [strings.firstIndex]
  | cons x pre ih =>
    intro hc
    have hx : x ≠ c := fun h => hc (by simp [h])
    have hpre : c ∉ pre := fun h => hc (List.mem_cons_of_mem _ h)
    simp [strings.firstIndex, hx, ih hpre]

/-- C20 at its failing input: `function` cuts at the first dot of the whole name, so
for an import path with a dot ("github.com/...") it returns the rest of the import
path with the function name, not the function name.  In general it returns what
follows the first dot, with every centre dot replaced. -/
theorem function_dotted_import_path :
    function "github.com/user/pkg.Type.Method" = "com/user/pkg.Type.Method" ∧
    (∀ pre rest : List Char, dot ∉ pre →
      function (String.mk (pre ++ dot :: rest)) =
        String.mk (strings.Replace rest centerDot dot)) := by
  refine ⟨by decide, ?_⟩
  intro pre rest hpre
  unfold function strings.Index
  simp only [firstIndex_append_cons dot rest pre hpre]
  have h0 : ((pre.length : Int) ≥ 0) := Int.natCast_nonneg _
  simp only [h0, if_true]
  have h1 : ((pre.length : Int) + 1).toNat = pre.length + 1 := by omega
  rw [h1]
  simp

/-! ## File names -/

theorem lastIndex_eq_none (c : Char) : ∀ l : List Char,
    strings.lastIndex l c = none → c ∉ l := by
  intro l
  induction l with
  | nil => intro _; simp
  | cons x xs ih =>
    intro h
    unfold strings.lastIndex at h
    cases hxs : strings.lastIndex xs c with
    | some i => rw [hxs] at h; simp at h
    | none =>
      rw [hxs] at h
      by_cases hx : x = c
      · simp [hx] at h
      · intro hm
        rcases List.mem_cons.1 hm with h1 | h1
        · exact hx h1.symm
        · exact ih hxs h1

theorem lastIndex_eq_some (c : Char) : ∀ (l : List Char) (j : Nat),
    strings.lastIndex l c = some j →
      ∃ pre post, l = pre ++ c :: post ∧ c ∉ post ∧ j = pre.length := by
  intro l
  induction l with
  | nil => intro j h; simp [strings.lastIndex] at h
  | cons x xs ih =>
    intro j h
    unfold strings.lastIndex at h
    cases hxs : strings.lastIndex xs c with
    | some i =>
      rw [hxs] at h
      simp only [Option.some.injEq] at h
      obtain ⟨pre, post, hl, hp, hi⟩ := ih i hxs
      exact ⟨x :: pre, post, by rw [hl]; rfl, hp, by rw [← h, hi]; rfl⟩
    | none =>
      rw [hxs] at h
      by_cases hx : x = c
      · simp only [hx, if_true, Option.some.injEq] at h
        exact ⟨[], xs, by rw [hx]; rfl, lastIndex_eq_none c xs hxs, by rw [← h]; rfl⟩
      · simp [hx] at h

/-- The loop of `fileName` started at position `n` with `k` iterations to run: it
ends at -1 when the first `n` characters hold fewer than `k` separators, and else at
the `k`-th separator from the end of them. -/
theorem fileName_loop_spec (file : List Char) : ∀ (k n : Nat),
    (k = 0 → fileName.loop file k n = n) ∧
    ((file.take n).count sep < k → fileName.loop file k n = -1) ∧
    (1 ≤ k → k ≤ (file.take n).count sep →
      ∃ pre post, file.take n = pre ++ sep :: post ∧ post.count sep = k - 1 ∧
        fileName.loop file k n = pre.length) := by
  intro k
  induction k with
  | zero =>
    intro n
    refine ⟨fun _ => rfl, fun h => absurd h (Nat.not_lt_zero _), fun h => absurd h (by decide)⟩
  | succ k ih =>
    intro n
    have hloop : fileName.loop file (k + 1) n =
        if strings.LastIndex (file.take n) sep = -1 then -1
        else fileName.loop file k (strings.LastIndex (file.take n) sep) := by
      simp [fileName.loop]
    cases hli : strings.lastIndex (file.take n) sep with
    | none =>
      have hno := lastIndex_eq_none sep _ hli
      have hcount : (file.take n).count sep = 0 := List.count_eq_zero_of_not_mem hno
      have hL : strings.LastIndex (file.take n) sep = -1 := by
        simp [strings.LastIndex, hli]
      refine ⟨fun h => absurd h (Nat.succ_ne_zero k), fun _ => by rw [hloop, hL]; rfl, ?_⟩
      intro _ hle
      rw [hcount] at hle
      exact absurd hle (by omega)
    | some j =>
      obtain ⟨pre, post, hl, hp, hj⟩ := lastIndex_eq_some sep _ j hli
      have hL : strings.LastIndex (file.take n) sep = (pre.length : Int) := by
        simp [strings.LastIndex, hli, hj]
      have hne : ¬ ((pre.length : Int) = -1) := by omega
      have hpost : post.count sep = 0 := List.count_eq_zero_of_not_mem hp
      have hcount : (file.take n).count sep = pre.count sep + 1 := by
        rw [hl, List.count_append, List.count_cons_self, hpost]
      have hlen : pre.length ≤ n := by
        have h1 : (file.take n).length ≤ n := by
          rw [List.length_take]; exact Nat.min_le_left _ _
        rw [hl, List.length_append] at h1
        omega
      have htake : file.take pre.length = pre := by
        have h2 : (file.take n).take pre.length = pre := by
          rw [hl, List.take_left']
          rfl
        rw [List.take_take, Nat.min_eq_left hlen] at h2
        exact h2
      obtain ⟨ih1, ih2, ih3⟩ := ih pre.length
      rw [htake] at ih2 ih3
      rw [hloop, hL, if_neg hne]
      refine ⟨fun h => absurd h (Nat.succ_ne_zero k), ?_, ?_⟩
      · intro hlt
        exact ih2 (by omega)
      · intro _ hle
        by_cases hk : k = 0
        · subst hk
          exact ⟨pre, post, hl, by simpa using hpost, ih1 rfl⟩
        · obtain ⟨pre1, post1, hpre, hc1, hres⟩ := ih3 (by omega) (by omega)
          refine ⟨pre1, post1 ++ sep :: post, ?_, ?_, hres⟩
          · rw [hl, hpre]; simp
          · rw [List.count_append, List.count_cons_self, hpost, hc1]; omega

theorem fileName_cases (name file : String) :
    (strings.Count file.data sep < strings.Count name.data sep + 2 ∧
      fileName name file = file) ∨
    (strings.Count name.data sep + 2 ≤ strings.Count file.data sep ∧
      ∃ pre, file.data = pre ++ sep :: (fileName name file).data ∧
        strings.Count (fileName name file).data sep = strings.Count name.data sep + 1) := by
  obtain ⟨_, h2, h3⟩ :=
    fileName_loop_spec file.data (strings.Count name.data sep + 2) file.data.length
  rw [List.take_length] at h2 h3
  by_cases hlt : strings.Count file.data sep < strings.Count name.data sep + 2
  · refine Or.inl ⟨hlt, ?_⟩
    unfold fileName
    simp only [h2 hlt]
    rfl
  · refine Or.inr ⟨Nat.le_of_not_lt hlt, ?_⟩
    obtain ⟨pre, post, hf, hc, hres⟩ := h3 (by omega) (Nat.le_of_not_lt hlt)
    have hdata : (fileName name file).data = post := by
      unfold fileName
      simp only [hres]
      have h1 : ((pre.length : Int) + 1).toNat = pre.length + 1 := by omega
      rw [h1, hf]
      simp
    refine ⟨pre, by rw [hdata]; exact hf, ?_⟩
    rw [hdata]
    unfold strings.Count at hc ⊢
    omega

/-- C17 as stated fails: with two adjacent separators at the cut the result begins
with a separator.  `fileName("f", "a/b//c")` has enough separators (3, for a goal of 2)
and returns "/c". -/
theorem fileName_leading_separator :
    strings.Count "f".data sep + 2 ≤ strings.Count "a/b//c".data sep ∧
    fileName "f" "a/b//c" = "/c" ∧
    (fileName "f" "a/b//c").data.head? = some sep := by
  decide

/-- C17, amended: `fileName(name, file)` is a suffix of `file`; when `file` has at
least `count(name, "/") + 2` separators the result is the part of `file` after the
separator that is followed by exactly `count(name, "/") + 1` separators (the
`count(name, "/") + 2`-th from the end), and it has no leading separator provided
`file` has no two adjacent separators; otherwise the result is `file` unchanged.
`fileName("pkg/sub.Type.Method", "/home/user/src/pkg/sub/file.go")` is
"pkg/sub/file.go". -/
theorem fileName_relativize (name file : String) :
    (fileName name file).data <:+ file.data ∧
    (strings.Count name.data sep + 2 ≤ strings.Count file.data sep →
      ∃ pre, file.data = pre ++ sep :: (fileName name file).data ∧
        strings.Count (fileName name file).data sep = strings.Count name.data sep + 1 ∧
        ((∀ a b, file.data ≠ a ++ sep :: sep :: b) →
          (fileName name file).data.head? ≠ some sep)) ∧
    (strings.Count file.data sep < strings.Count name.data sep + 2 →
      fileName name file = file) ∧
    fileName "pkg/sub.Type.Method" "/home/user/src/pkg/sub/file.go" = "pkg/sub/file.go" := by
  refine ⟨?_, ?_, ?_, by decide⟩
  · rcases fileName_cases name file with ⟨_, he⟩ | ⟨_, pre, hf, _⟩
    · rw [he]
    · exact ⟨pre ++ [sep], by rw [hf]; simp⟩
  · intro hle
    rcases fileName_cases name file with ⟨hlt, _⟩ | ⟨_, pre, hf, hc⟩
    · exact absurd hle (Nat.not_le_of_lt hlt)
    · refine ⟨pre, hf, hc, ?_⟩
      intro hno hhead
      cases hd : (fileName name file).data with
      | nil => rw [hd] at hhead; simp at hhead
      | cons x r =>
        rw [hd] at hhead hf
        simp only [List.head?_cons, Option.some.injEq] at hhead
        rw [hhead] at hf
        exact hno pre r hf
  · intro hlt
    rcases fileName_cases name file with ⟨_, he⟩ | ⟨hle, _⟩
    · exact he
    · exact absurd hle (Nat.not_le_of_lt hlt)

/-! ## Rendering the stack -/

/-- One turn of the loop of `frames`, read off `Next` as the source does: stop when
`more` is false, stop at an unwanted frame, else append the line and go on. -/
theorem frames_loop_Next (readFile : String → Option String) (fs : List Frame)
    (frames : List String) (lines : List (List Char)) (lastFile : String) :
    stack.frames.loop readFile fs frames lines lastFile =
      if (Frames.Next fs).1.2 = false then (frames, (Frames.Next fs).2)
      else if discardRemainder (Frames.Next fs).1.1 then (frames, (Frames.Next fs).2)
      else stack.frames.loop readFile (Frames.Next fs).2
        (frames ++ [(stack.frames.line readFile (Frames.Next fs).1.1 lines lastFile).1])
        (stack.frames.line readFile (Frames.Next fs).1.1 lines lastFile).2.1
        (stack.frames.line readFile (Frames.Next fs).1.1 lines lastFile).2.2 := by
  cases fs with
  | nil => simp [stack.frames.loop, Frames.Next]
  | cons f t =>
    cases t with
    | nil => simp [stack.frames.loop, Frames.Next]
    | cons g rest =>
      by_cases hd : discardRemainder f = true <;> simp [stack.frames.loop, Frames.Next, hd]

/-- The loop over kept frames that are followed by at least one more frame renders
them all and goes on with the rest. -/
theorem frames_loop_append (readFile : String → Option String) (g : Frame)
    (rest : List Frame) : ∀ (pre : List Frame) (frames : List String)
    (lines : List (List Char)) (lastFile : String),
    (∀ f ∈ pre, discardRemainder f = false) →
    stack.frames.loop readFile (pre ++ g :: rest) frames lines lastFile =
      stack.frames.loop readFile (g :: rest)
        (frames ++ (renderFrames readFile pre lines lastFile).1)
        (renderFrames readFile pre lines lastFile).2.1
        (renderFrames readFile pre lines lastFile).2.2 := by
  intro pre
  induction pre with
  | nil => intro frames lines lastFile _; simp [renderFrames]
  | cons f pre ih =>
    intro frames lines lastFile hpre
    have hf : discardRemainder f = false := hpre f (List.mem_cons_self _ _)
    have hrest : ∀ x ∈ pre, discardRemainder x = false :=
      fun x hx => hpre x (List.mem_cons_of_mem _ hx)
    have hstep : stack.frames.loop readFile (f :: (pre ++ g :: rest)) frames lines lastFile =
        stack.frames.loop readFile (pre ++ g :: rest)
          (frames ++ [(stack.frames.line readFile f lines lastFile).1])
          (stack.frames.line readFile f lines lastFile).2.1
          (stack.frames.line readFile f lines lastFile).2.2 := by
      cases hl : pre ++ g :: rest with
      | nil => simp at hl
      | cons x t => simp [stack.frames.loop, hf]
    rw [List.cons_append, hstep, ih _ _ _ hrest]
    simp [renderFrames, List.append_assoc]

theorem renderFrames_length (readFile : String → Option String) :
    ∀ (fs : List Frame) (lines : List (List Char)) (lastFile : String),
    (renderFrames readFile fs lines lastFile).1.length = fs.length := by
  intro fs
  induction fs with
  | nil => intro _ _; rfl
  | cons f fs ih => intro lines lastFile; simp [renderFrames, ih]

/-- The lines of `frames` when a frame is unwanted: those of the frames before the
first unwanted one, whatever that frame and the frames after it are. -/
theorem frames_of_unwanted (readFile : String → Option String) (pre : List Frame)
    (d : Frame) (post : List Frame) (formatted : List String)
    (hpre : ∀ f ∈ pre, discardRemainder f = false) (hd : discardRemainder d = true) :
    (stack.frames readFile ⟨pre ++ d :: post, formatted⟩).1 =
      (renderFrames readFile pre [] "").1 := by
  unfold stack.frames
  simp only
  rw [frames_loop_append readFile d post pre [] [] "" hpre]
  cases post with
  | nil => simp [stack.frames.loop]
  | cons g rest => simp [stack.frames.loop, hd]

/-- The lines of `frames` when no frame is unwanted: those of all frames but the last
one, which `Next` returns with `more` false. -/
theorem frames_of_wanted (readFile : String → Option String) (fs : List Frame)
    (formatted : List String) (hfs : ∀ f ∈ fs, discardRemainder f = false) :
    (stack.frames readFile ⟨fs, formatted⟩).1 =
      (renderFrames readFile fs.dropLast [] "").1 := by
  unfold stack.frames
  simp only
  rcases List.eq_nil_or_concat fs with rfl | ⟨init, last, rfl⟩
  · simp [stack.frames.loop, renderFrames]
  · have hinit : ∀ f ∈ init, discardRemainder f = false :=
      fun f hf => hfs f (by simp [hf])
    rw [List.concat_eq_append] at *
    rw [frames_loop_append readFile last [] init [] [] "" hinit]
    simp [stack.frames.loop]

/-- C13: when some frame is unwanted (its file path contains "gorilla" or "runtime"),
`frames` returns the lines of the frames before the first such frame only: their
number is at most the index of that frame, and they stay the same whatever unwanted
frame stands at that index and whatever frames follow it. -/
theorem frames_discard (readFile : String → Option String) (pre : List Frame) (d : Frame)
    (post : List Frame) (formatted : List String)
    (hpre : ∀ f ∈ pre, discardRemainder f = false) (hd : discardRemainder d = true) :
    (stack.frames readFile ⟨pre ++ d :: post, formatted⟩).1 =
      (renderFrames readFile pre [] "").1 ∧
    (stack.frames readFile ⟨pre ++ d :: post, formatted⟩).1.length ≤ pre.length ∧
    (∀ (d1 : Frame) (post1 : List Frame), discardRemainder d1 = true →
      (stack.frames readFile ⟨pre ++ d1 :: post1, formatted⟩).1 =
        (stack.frames readFile ⟨pre ++ d :: post, formatted⟩).1) := by
  have h1 := frames_of_unwanted readFile pre d post formatted hpre hd
  refine ⟨h1, ?_, ?_⟩
  · rw [h1, renderFrames_length]
  · intro d1 post1 hd1
    rw [h1, frames_of_unwanted readFile pre d1 post1 formatted hpre hd1]

theorem frames_discard_witness :
    (∀ f ∈ [(⟨"main.run", "/home/user/src/app/main.go", 10⟩ : Frame)],
      discardRemainder f = false) ∧
    discardRemainder ⟨"mux.ServeHTTP", "/home/user/src/github.com/gorilla/mux/mux.go", 210⟩ =
      true ∧
    (stack.frames (fun _ => none)
      ⟨[⟨"main.run", "/home/user/src/app/main.go", 10⟩] ++
        ⟨"mux.ServeHTTP", "/home/user/src/github.com/gorilla/mux/mux.go", 210⟩ ::
        [⟨"main.main", "/home/user/src/app/main.go", 20⟩], []⟩).1 = ["app/main.go:10 run"] ∧
    ((stack.frames (fun _ => none)
      ⟨[⟨"main.run", "/home/user/src/app/main.go", 10⟩] ++
        ⟨"mux.ServeHTTP", "/home/user/src/github.com/gorilla/mux/mux.go", 210⟩ ::
        [⟨"main.main", "/home/user/src/app/main.go", 20⟩], []⟩).1 =
      (renderFrames (fun _ => none) [⟨"main.run", "/home/user/src/app/main.go", 10⟩] [] "").1 ∧
    (stack.frames (fun _ => none)
      ⟨[⟨"main.run", "/home/user/src/app/main.go", 10⟩] ++
        ⟨"mux.ServeHTTP", "/home/user/src/github.com/gorilla/mux/mux.go", 210⟩ ::
        [⟨"main.main", "/home/user/src/app/main.go", 20⟩], []⟩).1.length ≤
      [(⟨"main.run", "/home/user/src/app/main.go", 10⟩ : Frame)].length ∧
    (∀ (d1 : Frame) (post1 : List Frame), discardRemainder d1 = true →
      (stack.frames (fun _ => none)
        ⟨[⟨"main.run", "/home/user/src/app/main.go", 10⟩] ++ d1 :: post1, []⟩).1 =
      (stack.frames (fun _ => none)
        ⟨[⟨"main.run", "/home/user/src/app/main.go", 10⟩] ++
          ⟨"mux.ServeHTTP", "/home/user/src/github.com/gorilla/mux/mux.go", 210⟩ ::
          [⟨"main.main", "/home/user/src/app/main.go", 20⟩], []⟩).1)) :=
  ⟨by decide, by decide, by decide,
    frames_discard (fun _ => none) [⟨"main.run", "/home/user/src/app/main.go", 10⟩]
      ⟨"mux.ServeHTTP", "/home/user/src/github.com/gorilla/mux/mux.go", 210⟩
      [⟨"main.main", "/home/user/src/app/main.go", 20⟩] [] (by decide) (by decide)⟩

/-- C14 at its failing input: `frames` leaves the loop as soon as `Next` reports
`more` false, which it does together with the last frame, so the outermost captured
frame is never rendered.  With one captured frame nothing is returned; with no
unwanted frame the lines are those of all frames but the last. -/
theorem frames_drops_outermost :
    (∀ readFile : String → Option String,
      (stack.frames readFile ⟨[⟨"main.main", "/home/user/src/app/main.go", 20⟩], []⟩).1 = []) ∧
    (stack.frames (fun _ => none)
      ⟨[⟨"main.run", "/home/user/src/app/main.go", 10⟩,
        ⟨"main.main", "/home/user/src/app/main.go", 20⟩], []⟩).1 = ["app/main.go:10 run"] ∧
    (∀ (readFile : String → Option String) (fs : List Frame) (formatted : List String),
      (∀ f ∈ fs, discardRemainder f = false) →
      (stack.frames readFile ⟨fs, formatted⟩).1 = (renderFrames readFile fs.dropLast [] "").1 ∧
      (stack.frames readFile ⟨fs, formatted⟩).1.length = fs.length - 1) := by
  refine ⟨fun readFile => rfl, by decide, ?_⟩
  intro readFile fs formatted hfs
  have h1 := frames_of_wanted readFile fs formatted hfs
  refine ⟨h1, ?_⟩
  rw [h1, renderFrames_length, List.length_dropLast]

theorem render_of_nonempty (readFile : String → Option String) (st : stack)
    (hlen : ¬ st.formatted.length = 0) : stack.render readFile st = st := by
  unfold stack.render
  rw [if_neg hlen]

/-- C15 at its failing input: the cache is taken to be filled when it is not empty.
For a stack whose innermost frame is unwanted the first render is empty and leaves
the iterator behind that frame; the second render walks the frames again and returns
a line.  When the first render is not empty, a second render returns the same lines
and leaves the stack as it is. -/
theorem render_twice_differs :
    (∀ readFile : String → Option String,
      (stack.render readFile
        ⟨[⟨"runtime.goexit", "/usr/local/go/src/runtime/asm_amd64.s", 1650⟩,
          ⟨"main.run", "/home/user/src/app/main.go", 10⟩,
          ⟨"main.main", "/home/user/src/app/main.go", 20⟩], []⟩).formatted = [] ∧
      (stack.render readFile (stack.render readFile
        ⟨[⟨"runtime.goexit", "/usr/local/go/src/runtime/asm_amd64.s", 1650⟩,
          ⟨"main.run", "/home/user/src/app/main.go", 10⟩,
          ⟨"main.main", "/home/user/src/app/main.go", 20⟩], []⟩)).formatted.length = 1) ∧
    (stack.Format (fun _ => none)
      ⟨[⟨"runtime.goexit", "/usr/local/go/src/runtime/asm_amd64.s", 1650⟩,
        ⟨"main.run", "/home/user/src/app/main.go", 10⟩,
        ⟨"main.main", "/home/user/src/app/main.go", 20⟩], []⟩).1 = "\n" ∧
    (stack.Format (fun _ => none) (stack.Format (fun _ => none)
      ⟨[⟨"runtime.goexit", "/usr/local/go/src/runtime/asm_amd64.s", 1650⟩,
        ⟨"main.run", "/home/user/src/app/main.go", 10⟩,
        ⟨"main.main", "/home/user/src/app/main.go", 20⟩], []⟩).2).1 =
      "\napp/main.go:10 run" ∧
    (∀ (quote : String → String),
      (stack.MarshalJSON quote (fun _ => none)
        ⟨[⟨"runtime.goexit", "/usr/local/go/src/runtime/asm_amd64.s", 1650⟩,
          ⟨"main.run", "/home/user/src/app/main.go", 10⟩,
          ⟨"main.main", "/home/user/src/app/main.go", 20⟩], []⟩).1 = "[]" ∧
      (stack.MarshalJSON quote (fun _ => none) (stack.MarshalJSON quote (fun _ => none)
        ⟨[⟨"runtime.goexit", "/usr/local/go/src/runtime/asm_amd64.s", 1650⟩,
          ⟨"main.run", "/home/user/src/app/main.go", 10⟩,
          ⟨"main.main", "/home/user/src/app/main.go", 20⟩], []⟩).2).1 =
        "[" ++ quote "app/main.go:10 run" ++ "]") ∧
    (∀ (readFile : String → Option String) (st : stack),
      (stack.render readFile st).formatted ≠ [] →
      stack.render readFile (stack.render readFile st) = stack.render readFile st) := by
  refine ⟨?_, by decide, by decide, ?_, ?_⟩
  · intro readFile
    have hd : discardRemainder
        ⟨"runtime.goexit", "/usr/local/go/src/runtime/asm_amd64.s", 1650⟩ = true := by decide
    have hr : discardRemainder ⟨"main.run", "/home/user/src/app/main.go", 10⟩ = false := by
      decide
    refine ⟨?_, ?_⟩
    · simp [stack.render, stack.frames, stack.frames.loop, hd]
    · simp [stack.render, stack.frames, stack.frames.loop, hd, hr]
  · intro quote
    have hd : discardRemainder
        ⟨"runtime.goexit", "/usr/local/go/src/runtime/asm_amd64.s", 1650⟩ = true := by decide
    have hr : discardRemainder ⟨"main.run", "/home/user/src/app/main.go", 10⟩ = false := by
      decide
    have hline : (stack.frames.line (fun _ => none)
        ⟨"main.run", "/home/user/src/app/main.go", 10⟩ [] "").1 = "app/main.go:10 run" := by
      decide
    refine ⟨?_, ?_⟩
    · simp [stack.MarshalJSON, stack.render, stack.frames, stack.frames.loop, hd,
        stack.MarshalJSON.loop]
    · simp [stack.MarshalJSON, stack.render, stack.frames, stack.frames.loop, hd, hr,
        stack.MarshalJSON.loop, hline]
  · intro readFile st hne
    exact render_of_nonempty readFile _ (fun h0 => hne (List.length_eq_zero.1 h0))

/-! ## JSON -/

/-- C11 at its failing input: `MarshalJSON` writes the op between two quotes as it
is, without the quoting it applies to the wrapped message and to the frames.  For
every error the op stands unescaped in the output; for the op `a"b` (with `%q` of
"x" and the compaction of "[]" as Go computes them) the output is
`{"code":0,"op":"a"b","kind":0,"err":"x","stack":[]}`, whose op string ends at the
quote inside the op. -/
theorem Error_MarshalJSON_raw_op :
    (∀ (quote : String → String) (jsonCompact : String → Option String)
      (readFile : String → Option String) (h : Heap) (fuel : Nat) (e : Error) (m : String)
      (r : String × Heap),
      ErrorValue.Error h fuel e.Err = some m →
      jsonMarshalStack quote jsonCompact readFile h e.stack = some r →
      Error.MarshalJSON quote jsonCompact readFile h fuel e =
        some ("" ++ "\x7b\"code\":" ++ toString e.Code ++ ",\"op\":\"" ++ e.Op ++
          "\",\"kind\":" ++ toString e.Kind ++ ",\"err\":" ++ quote m ++ ",\"stack\":" ++
          r.1 ++ "\x7d", r.2)) ∧
    Error.MarshalJSON (fun s => "\"" ++ s ++ "\"") some (fun _ => none)
        ⟨[], [⟨[], []⟩]⟩ 0 ⟨0, "a\"b", Kind.Other, .stringError "x", some 0⟩ =
      some ("\x7b\"code\":0,\"op\":\"a\"b\",\"kind\":0,\"err\":\"x\",\"stack\":[]\x7d",
        ⟨[], [⟨[], []⟩]⟩) := by
  refine ⟨?_, by decide⟩
  intro quote jsonCompact readFile h fuel e m r hm hs
  unfold Error.MarshalJSON
  simp only [hm, hs]

end errors
